import Mathlib

/-!
Functional-dependency analysis of `main.cpp`.

A shallow embedding of the analysis core of the 3NF converter:

* `closure` (lines 17-32): attribute closure under a list of functional dependencies,
* `findCandidateKeys` (lines 97-121): bit-mask enumeration of candidate keys,
* `normalize3NF` (lines 124-156): the relations the decomposition prints.

`std::set<string>` is a `Finset String`; its iteration order is the list `sortedAttrs`.
`std::vector` is a `List`.  The `int` arithmetic of the enumeration is 32-bit.
-/

namespace ThreeNF

/-! ## Data model -/

/-- An attribute is a `std::string`. -/
abbrev Attribute := String

/-- A `std::set<string>`: a finite set of attribute names. -/
abbrev AttributeSet := Finset Attribute

/-- The `struct FunctionalDependency` of lines 11-14. -/
structure FunctionalDependency where
  lhs : AttributeSet
  rhs : AttributeSet
deriving DecidableEq

/-! ## `closure` (lines 17-32) -/

/-- One execution of the `for (const auto& fd : fds)` loop of lines 22-29.  The state is the
pair `(result, changed)`: when `includes(result, fd.lhs)` holds, `fd.rhs` is inserted into
`result` and `changed` is set if the size of `result` grew. -/
def closurePass (fds : List FunctionalDependency) (start : AttributeSet × Bool) :
    AttributeSet × Bool :=
  fds.foldl
    (fun st fd =>
      if fd.lhs ⊆ st.1 then
        (st.1 ∪ fd.rhs, st.2 || decide (st.1.card < (st.1 ∪ fd.rhs).card))
      else st)
    start

/-- The `do { ... } while (changed);` loop of lines 20-30, unrolled at most `fuel` times.
Each round resets `changed` to `false`, runs one pass and repeats only if `changed` was set. -/
def closureLoop (fds : List FunctionalDependency) : Nat → AttributeSet → AttributeSet
  | 0, result => result
  | fuel + 1, result =>
    let st := closurePass fds (result, false)
    if st.2 then closureLoop fds fuel st.1 else st.1

/-- All attributes named on a right-hand side of `fds`. -/
def rhsAttrs (fds : List FunctionalDependency) : AttributeSet :=
  fds.foldr (fun fd acc => fd.rhs ∪ acc) ∅

/-- The function `closure` of lines 17-32.  The number of rounds is bounded by the number of
right-hand-side attributes missing from `attrs`, plus one; `closureLoop_exit` shows that the
loop always leaves through `changed = false` before the bound is used up. -/
def closure (attrs : AttributeSet) (fds : List FunctionalDependency) : AttributeSet :=
  closureLoop fds ((rhsAttrs fds \ attrs).card + 1) attrs

/-! ## Iteration order of `std::set` -/

/-- Decision procedure for `≤` on attribute names that evaluates on the character lists
(`std::string::operator<` compares lexicographically). -/
def attrDecLe : DecidableRel (fun a b : Attribute => a ≤ b) :=
  fun a b => decidable_of_iff (a.toList ≤ b.toList) String.le_iff_toList_le.symm

/-- Sort a list of attribute names in increasing order. -/
def sortAttrs (l : List Attribute) : List Attribute :=
  @List.insertionSort Attribute (· ≤ ·) attrDecLe l

/-- The elements of a `std::set<string>` from `begin()` to `end()`: in increasing order. -/
def sortedAttrs (s : AttributeSet) : List Attribute :=
  Quot.liftOn s.val sortAttrs (fun a b h =>
    List.eq_of_perm_of_sorted
      (((@List.perm_insertionSort _ _ attrDecLe a).trans h).trans
        (@List.perm_insertionSort _ _ attrDecLe b).symm)
      (@List.sorted_insertionSort _ _ attrDecLe _ _ a)
      (@List.sorted_insertionSort _ _ attrDecLe _ _ b))

/-- The comparison `std::lexicographical_compare` on two element sequences, which is
`operator<` of `std::set<string>`. -/
def lexLess : List Attribute → List Attribute → Bool
  | _, [] => false
  | [], _ :: _ => true
  | a :: as, b :: bs =>
    if a.toList < b.toList then true
    else if b.toList < a.toList then false
    else lexLess as bs

/-- The order `operator<` on `set<string>`, the comparator of `set<set<string>>`. -/
def relLess (a b : AttributeSet) : Bool :=
  lexLess (sortedAttrs a) (sortedAttrs b)

/-- Insertion `relations.insert(rel)` into a `set<set<string>>`, kept as the list of its elements
in increasing order: `rel` is placed before the first larger element and dropped if an
equivalent element (neither smaller nor larger) is already present. -/
def insertRel (rel : AttributeSet) : List AttributeSet → List AttributeSet
  | [] => [rel]
  | r :: rs =>
    if relLess rel r then rel :: r :: rs
    else if relLess r rel then r :: insertRel rel rs
    else r :: rs

/-- The lookup `relations.count(key)`: whether an element equivalent to `key` is present. -/
def countRel (key : AttributeSet) (relations : List AttributeSet) : Bool :=
  relations.any (fun r => !relLess r key && !relLess key r)

/-! ## `findCandidateKeys` (lines 97-121) -/

/-- The bit pattern of the 32-bit `int` expression `1 << k`.  The shift instruction uses the
count modulo 32, so the pattern has the single bit `k % 32` (for `k < 32` this is the value
C++ defines; for `k ≥ 32` it is what the compiled shift yields, e.g. `1 << 32` is `1` and
`1 << 33` is `2`). -/
def shlBits (k : Nat) : Nat :=
  1 <<< (k % 32)

/-- The value of the `int` expression `1 << n`: the pattern `shlBits n` read as a 32-bit
two's-complement integer (so `1 << 31` is `-2 ^ 31`). -/
def shl1 (n : Nat) : Int :=
  if shlBits n < 2 ^ 31 then (shlBits n : Int) else (shlBits n : Int) - 2 ^ 32

/-- The subset built at lines 103-105: for `j = 0 .. n-1`, `attrs[j]` is inserted when
`i & (1 << j)` is non-zero.  The mask `i` is a non-negative `int`, so the test looks at
bit `j % 32` of `i`. -/
def subsetOfMask (attrs : List Attribute) (i : Nat) : AttributeSet :=
  (List.range attrs.length).foldl
    (fun subset j => if i &&& shlBits j ≠ 0 then insert (attrs.getD j "") subset else subset)
    ∅

/-- The body of the enumeration loop (lines 103-117) for the mask `i`, acting on `keys`. -/
def keyStep (allAttrs : AttributeSet) (attrs : List Attribute)
    (fds : List FunctionalDependency) (keys : List AttributeSet) (i : Nat) :
    List AttributeSet :=
  let subset := subsetOfMask attrs i
  if closure subset fds = allAttrs then
    if keys.any (fun key => decide (key ⊆ subset)) then keys else keys ++ [subset]
  else keys

/-- The function `findCandidateKeys` of lines 97-121.  The loop runs over the `int` values
`1 ≤ i < (1 << n)`; it does not run at all when `1 << n` is not above `1`. -/
def findCandidateKeys (allAttrs : AttributeSet) (fds : List FunctionalDependency) :
    List AttributeSet :=
  let attrs := sortedAttrs allAttrs
  let n := attrs.length
  (List.range' 1 (shl1 n - 1).toNat).foldl (keyStep allAttrs attrs fds) []

/-! ## `normalize3NF` (lines 124-156) -/

/-- The set `relations` after the loop of lines 129-133. -/
def fdRelations (fds : List FunctionalDependency) : List AttributeSet :=
  fds.foldl (fun relations fd => insertRel (fd.lhs ∪ fd.rhs) relations) []

/-- The flag `keyCovered` after the loop of lines 136-141. -/
def keyCovered (relations : List AttributeSet) (candidateKeys : List AttributeSet) : Bool :=
  candidateKeys.any (fun key => countRel key relations)

/-- The function `normalize3NF` of lines 124-156: the relations for which a `CREATE TABLE`
statement is printed, in printing order.  The access `candidateKeys[0]` of line 143 is
unguarded in the source; on an empty vector it is out of bounds and the result is `none`. -/
def normalize3NF (fds : List FunctionalDependency) (candidateKeys : List AttributeSet) :
    Option (List AttributeSet) :=
  let relations := fdRelations fds
  if keyCovered relations candidateKeys then some relations
  else
    match candidateKeys[0]? with
    | none => none
    | some key => some (insertRel key relations)

/-- The union of the attribute sets of a list of relations. -/
def attrsOf (relations : List AttributeSet) : AttributeSet :=
  relations.foldr (fun r acc => r ∪ acc) ∅

/-! ## Specification vocabulary -/

/-- A set `T` is closed under `fds`: every dependency whose left-hand side lies in `T` has
its right-hand side in `T`. -/
def ClosedUnder (fds : List FunctionalDependency) (T : AttributeSet) : Prop :=
  ∀ fd ∈ fds, fd.lhs ⊆ T → fd.rhs ⊆ T

instance (fds : List FunctionalDependency) (T : AttributeSet) : Decidable (ClosedUnder fds T) :=
  List.decidableBAll _ fds

/-- A universe of 31 attributes, the smallest size at which `1 << n` leaves the positive
range of `int`. -/
def universe31 : AttributeSet :=
  {"a01", "a02", "a03", "a04", "a05", "a06", "a07", "a08", "a09", "a10", "a11", "a12", "a13",
    "a14", "a15", "a16", "a17", "a18", "a19", "a20", "a21", "a22", "a23", "a24", "a25", "a26",
    "a27", "a28", "a29", "a30", "a31"}

/-- A universe of 33 attributes: `universe31` together with `a32` and `a33`. -/
def universe33 : AttributeSet :=
  {"a32", "a33"} ∪ universe31

/-- The single dependency `a01 → universe33`, under which `{a01}` is a key. -/
def fds33 : List FunctionalDependency :=
  [⟨{"a01"}, universe33⟩]

/-- The dependencies `A → B`, `B → C` of the worked example. -/
def exampleFDs : List FunctionalDependency :=
  [⟨{"A"}, {"B"}⟩, ⟨{"B"}, {"C"}⟩]

/-- The vector `keys` after the enumeration loop has handled the masks `1, ..., m`. -/
def keysUpTo (allAttrs : AttributeSet) (attrs : List Attribute)
    (fds : List FunctionalDependency) (m : Nat) : List AttributeSet :=
  (List.range' 1 m).foldl (keyStep allAttrs attrs fds) []

/-- The mask `i` passes both tests of the loop body: the closure of its subset is `allAttrs`,
and no mask `1 ≤ k < i` whose subset has closure `allAttrs` gives a subset of it. -/
def AcceptedMask (allAttrs : AttributeSet) (attrs : List Attribute)
    (fds : List FunctionalDependency) (i : Nat) : Prop :=
  closure (subsetOfMask attrs i) fds = allAttrs ∧
    ∀ k, 1 ≤ k → k < i → closure (subsetOfMask attrs k) fds = allAttrs →
      ¬ subsetOfMask attrs k ⊆ subsetOfMask attrs i

/-! ## The target design of the specification for the key search -/

/-- The acceptance rule of the specification for one enumerated subset: it is accepted iff its
closure is the universe and no previously accepted key is a subset of it. -/
def specKeyStep (allAttrs : AttributeSet) (fds : List FunctionalDependency)
    (keys : List AttributeSet) (subset : AttributeSet) : List AttributeSet :=
  if closure subset fds = allAttrs then
    if keys.any (fun key => decide (key ⊆ subset)) then keys else keys ++ [subset]
  else keys

/-- The key search of the specification, run over a given enumeration `order` of subsets. -/
def specCandidateKeys (allAttrs : AttributeSet) (fds : List FunctionalDependency)
    (order : List AttributeSet) : List AttributeSet :=
  order.foldl (specKeyStep allAttrs fds) []

/-- The list `order` enumerates the non-empty subsets of `allAttrs` in non-decreasing
cardinality order. -/
def SizeOrderedEnumeration (allAttrs : AttributeSet) (order : List AttributeSet) : Prop :=
  (∀ K, K ∈ order ↔ K ⊆ allAttrs ∧ K.Nonempty) ∧
    order.Pairwise (fun a b => a.card ≤ b.card)

/-- One enumeration of the non-empty subsets in non-decreasing cardinality order: all
sub-sequences of the sorted attribute list, sorted by size. -/
def subsetsBySize (allAttrs : AttributeSet) : List AttributeSet :=
  List.insertionSort (fun a b => a.card ≤ b.card)
    (((sortedAttrs allAttrs).sublists.map List.toFinset).filter (fun K => decide K.Nonempty))

/-! ## Properties of `closure` -/

theorem closurePass_cons (fd : FunctionalDependency) (fds : List FunctionalDependency)
    (st : AttributeSet × Bool) :
    closurePass (fd :: fds) st =
      closurePass fds (if fd.lhs ⊆ st.1 then
        (st.1 ∪ fd.rhs, st.2 || decide (st.1.card < (st.1 ∪ fd.rhs).card)) else st) := rfl

theorem closurePass_subset (fds : List FunctionalDependency) :
    ∀ st : AttributeSet × Bool, st.1 ⊆ (closurePass fds st).1 := by
  induction fds with
  | nil => intro st; exact Finset.Subset.refl _
  | cons fd fds ih =>
    intro st
    rw [closurePass_cons]
    refine Finset.Subset.trans ?_ (ih _)
    split_ifs
    · exact Finset.subset_union_left
    · exact Finset.Subset.refl _

theorem closurePass_flag_false (fds : List FunctionalDependency) :
    ∀ st : AttributeSet × Bool, (closurePass fds st).2 = false →
      st.2 = false ∧ (closurePass fds st).1 = st.1 ∧ ClosedUnder fds st.1 := by
  induction fds with
  | nil =>
    intro st h
    exact ⟨h, rfl, fun fd hfd => absurd hfd (List.not_mem_nil fd)⟩
  | cons fd fds ih =>
    intro st h
    rw [closurePass_cons] at h ⊢
    by_cases hl : fd.lhs ⊆ st.1
    · rw [if_pos hl] at h ⊢
      obtain ⟨h2, h1, hc⟩ := ih _ h
      simp only [Bool.or_eq_false_iff, decide_eq_false_iff_not, not_lt] at h2
      have heq : st.1 ∪ fd.rhs = st.1 :=
        (Finset.eq_of_subset_of_card_le Finset.subset_union_left h2.2).symm
      have hc2 : ClosedUnder fds st.1 := by
        have h3 := hc
        simp only [heq] at h3
        exact h3
      refine ⟨h2.1, h1.trans heq, ?_⟩
      intro g hg
      rcases List.mem_cons.1 hg with rfl | hg
      · intro _
        exact Finset.union_eq_left.1 heq
      · exact hc2 g hg
    · rw [if_neg hl] at h ⊢
      obtain ⟨h2, h1, hc⟩ := ih _ h
      refine ⟨h2, h1, ?_⟩
      intro g hg
      rcases List.mem_cons.1 hg with rfl | hg
      · intro hl2
        exact absurd hl2 hl
      · exact hc g hg

theorem closurePass_flag_true (fds : List FunctionalDependency) :
    ∀ st : AttributeSet × Bool, (closurePass fds st).2 = true →
      st.2 = true ∨ st.1 ⊂ (closurePass fds st).1 := by
  induction fds with
  | nil => intro st h; exact Or.inl h
  | cons fd fds ih =>
    intro st h
    rw [closurePass_cons] at h ⊢
    by_cases hl : fd.lhs ⊆ st.1
    · rw [if_pos hl] at h ⊢
      rcases ih _ h with h2 | h2
      · simp only [Bool.or_eq_true, decide_eq_true_eq] at h2
        rcases h2 with h2 | h2
        · exact Or.inl h2
        · right
          refine Finset.ssubset_of_ssubset_of_subset ?_ (closurePass_subset fds _)
          refine Finset.ssubset_iff_subset_ne.2 ⟨Finset.subset_union_left, ?_⟩
          intro heq
          have heq2 : st.1 = st.1 ∪ fd.rhs := heq
          rw [← heq2] at h2
          exact lt_irrefl _ h2
      · right
        exact Finset.ssubset_of_subset_of_ssubset Finset.subset_union_left h2
    · rw [if_neg hl] at h ⊢
      exact ih _ h

theorem closurePass_bound (fds : List FunctionalDependency) :
    ∀ st : AttributeSet × Bool, (closurePass fds st).1 ⊆ st.1 ∪ rhsAttrs fds := by
  induction fds with
  | nil => intro st; exact Finset.subset_union_left
  | cons fd fds ih =>
    intro st
    rw [closurePass_cons]
    refine Finset.Subset.trans (ih _) ?_
    have hr : rhsAttrs (fd :: fds) = fd.rhs ∪ rhsAttrs fds := rfl
    rw [hr]
    split_ifs
    · intro x hx
      simp only [Finset.mem_union] at hx ⊢
      tauto
    · intro x hx
      simp only [Finset.mem_union] at hx ⊢
      tauto

theorem closurePass_least (fds : List FunctionalDependency) (T : AttributeSet)
    (hT : ClosedUnder fds T) :
    ∀ st : AttributeSet × Bool, st.1 ⊆ T → (closurePass fds st).1 ⊆ T := by
  induction fds with
  | nil => intro st h; exact h
  | cons fd fds ih =>
    intro st h
    rw [closurePass_cons]
    have hT2 : ClosedUnder fds T := fun g hg => hT g (List.mem_cons_of_mem _ hg)
    apply ih hT2
    split_ifs with hl
    · exact Finset.union_subset h (hT fd (List.mem_cons_self _ _) (hl.trans h))
    · exact h

theorem closurePass_closed (fds : List FunctionalDependency) (r : AttributeSet)
    (hr : ClosedUnder fds r) : closurePass fds (r, false) = (r, false) := by
  induction fds with
  | nil => rfl
  | cons fd fds ih =>
    rw [closurePass_cons]
    have hr2 : ClosedUnder fds r := fun g hg => hr g (List.mem_cons_of_mem _ hg)
    by_cases hl : fd.lhs ⊆ r
    · have heq : r ∪ fd.rhs = r :=
        Finset.union_eq_left.2 (hr fd (List.mem_cons_self _ _) hl)
      simp only [if_pos hl, heq, lt_irrefl, decide_False, Bool.or_false]
      exact ih hr2
    · simp only [if_neg hl]
      exact ih hr2

theorem closureLoop_subset (fds : List FunctionalDependency) :
    ∀ (fuel : Nat) (result : AttributeSet), result ⊆ closureLoop fds fuel result := by
  intro fuel
  induction fuel with
  | zero => intro result; exact Finset.Subset.refl _
  | succ fuel ih =>
    intro result
    simp only [closureLoop]
    split_ifs
    · exact (closurePass_subset fds (result, false)).trans (ih _)
    · exact closurePass_subset fds (result, false)

theorem closureLoop_least (fds : List FunctionalDependency) (T : AttributeSet)
    (hT : ClosedUnder fds T) :
    ∀ (fuel : Nat) (result : AttributeSet), result ⊆ T → closureLoop fds fuel result ⊆ T := by
  intro fuel
  induction fuel with
  | zero => intro result h; exact h
  | succ fuel ih =>
    intro result h
    simp only [closureLoop]
    have hp := closurePass_least fds T hT (result, false) h
    split_ifs
    · exact ih _ hp
    · exact hp

/-- The fuel of `closureLoop` is never used up: with more rounds than right-hand-side attributes
missing from `result`, the loop ends with a pass that leaves `changed = false`, so the value
returned is closed under `fds`. -/
theorem closureLoop_exit (fds : List FunctionalDependency) :
    ∀ (fuel : Nat) (result : AttributeSet), (rhsAttrs fds \ result).card < fuel →
      ClosedUnder fds (closureLoop fds fuel result) := by
  intro fuel
  induction fuel with
  | zero => intro result h; exact absurd h (Nat.not_lt_zero _)
  | succ fuel ih =>
    intro result h
    simp only [closureLoop]
    by_cases hc : (closurePass fds (result, false)).2 = true
    · rw [if_pos hc]
      apply ih
      have hss : result ⊂ (closurePass fds (result, false)).1 := by
        rcases closurePass_flag_true fds (result, false) hc with h0 | h0
        · exact absurd h0 (by simp)
        · exact h0
      have hb := closurePass_bound fds (result, false)
      have hlt : (rhsAttrs fds \ (closurePass fds (result, false)).1).card
          < (rhsAttrs fds \ result).card := by
        apply Finset.card_lt_card
        obtain ⟨x, hx1, hx2⟩ := Finset.exists_of_ssubset hss
        refine Finset.ssubset_iff_subset_ne.2 ⟨?_, ?_⟩
        · intro y hy
          simp only [Finset.mem_sdiff] at hy ⊢
          exact ⟨hy.1, fun hyr => hy.2 (hss.1 hyr)⟩
        · intro heq
          have hx3 : x ∈ rhsAttrs fds \ result := by
            have := hb hx1
            simp only [Finset.mem_union] at this
            rcases this with h3 | h3
            · exact absurd h3 hx2
            · exact Finset.mem_sdiff.2 ⟨h3, hx2⟩
          rw [← heq] at hx3
          exact (Finset.mem_sdiff.1 hx3).2 hx1
      omega
    · rw [if_neg hc]
      have hf : (closurePass fds (result, false)).2 = false := by
        simpa using hc
      obtain ⟨_, h1, h2⟩ := closurePass_flag_false fds (result, false) hf
      rw [h1]
      exact h2

theorem closure_closed (attrs : AttributeSet) (fds : List FunctionalDependency) :
    ClosedUnder fds (closure attrs fds) :=
  closureLoop_exit fds _ attrs (Nat.lt_succ_self _)

theorem closure_superset (attrs : AttributeSet) (fds : List FunctionalDependency) :
    attrs ⊆ closure attrs fds :=
  closureLoop_subset fds _ attrs

theorem closure_least (attrs : AttributeSet) (fds : List FunctionalDependency)
    (T : AttributeSet) (h : attrs ⊆ T) (hT : ClosedUnder fds T) : closure attrs fds ⊆ T :=
  closureLoop_least fds T hT _ attrs h

theorem closure_of_closed (attrs : AttributeSet) (fds : List FunctionalDependency)
    (h : ClosedUnder fds attrs) : closure attrs fds = attrs :=
  Finset.Subset.antisymm (closure_least attrs fds attrs (Finset.Subset.refl _) h)
    (closure_superset attrs fds)

theorem closure_mono (S T : AttributeSet) (fds : List FunctionalDependency) (h : S ⊆ T) :
    closure S fds ⊆ closure T fds :=
  closure_least S fds _ (h.trans (closure_superset T fds)) (closure_closed T fds)

theorem closedUnder_iff_closure_eq (attrs : AttributeSet) (fds : List FunctionalDependency) :
    ClosedUnder fds attrs ↔ closure attrs fds = attrs :=
  ⟨closure_of_closed attrs fds, fun h => h ▸ closure_closed attrs fds⟩

theorem rhs_subset_rhsAttrs (fds : List FunctionalDependency) (fd : FunctionalDependency)
    (hfd : fd ∈ fds) : fd.rhs ⊆ rhsAttrs fds := by
  induction fds with
  | nil => exact absurd hfd (List.not_mem_nil fd)
  | cons g fds ih =>
    have hr : rhsAttrs (g :: fds) = g.rhs ∪ rhsAttrs fds := rfl
    rw [hr]
    rcases List.mem_cons.1 hfd with rfl | h
    · exact Finset.subset_union_left
    · exact (ih h).trans Finset.subset_union_right

theorem mem_rhsAttrs (a : Attribute) (fds : List FunctionalDependency) :
    a ∈ rhsAttrs fds ↔ ∃ fd ∈ fds, a ∈ fd.rhs := by
  induction fds with
  | nil => simp [rhsAttrs]
  | cons g fds ih =>
    have hr : rhsAttrs (g :: fds) = g.rhs ∪ rhsAttrs fds := rfl
    rw [hr, Finset.mem_union, ih]
    simp

theorem closure_subset_rhs (attrs : AttributeSet) (fds : List FunctionalDependency) :
    closure attrs fds ⊆ attrs ∪ rhsAttrs fds := by
  apply closure_least attrs fds _ Finset.subset_union_left
  intro fd hfd _
  exact (rhs_subset_rhsAttrs fds fd hfd).trans Finset.subset_union_right

/-! ## Properties of the iteration order -/

theorem sortedAttrs_coe (s : AttributeSet) : (sortedAttrs s : Multiset Attribute) = s.val := by
  obtain ⟨m, nd⟩ := s
  induction m using Quot.inductionOn with
  | h l => exact Quot.sound (@List.perm_insertionSort _ _ attrDecLe l)

theorem mem_sortedAttrs (s : AttributeSet) (a : Attribute) : a ∈ sortedAttrs s ↔ a ∈ s := by
  rw [← Finset.mem_val, ← sortedAttrs_coe, Multiset.mem_coe]

theorem nodup_sortedAttrs (s : AttributeSet) : (sortedAttrs s).Nodup := by
  rw [← Multiset.coe_nodup, sortedAttrs_coe]
  exact s.nodup

theorem length_sortedAttrs (s : AttributeSet) : (sortedAttrs s).length = s.card := by
  rw [← Multiset.coe_card, sortedAttrs_coe]
  rfl

theorem toFinset_sortedAttrs (s : AttributeSet) : (sortedAttrs s).toFinset = s := by
  ext a
  rw [List.mem_toFinset, mem_sortedAttrs]

theorem sortedAttrs_injective (s t : AttributeSet) (h : sortedAttrs s = sortedAttrs t) :
    s = t := by
  rw [← toFinset_sortedAttrs s, ← toFinset_sortedAttrs t, h]

/-! ## Masks and subsets -/

theorem mask_bit_iff (i j : Nat) : i &&& (1 <<< j) ≠ 0 ↔ i.testBit j = true := by
  rw [Nat.one_shiftLeft]
  constructor
  · intro h
    by_contra hb
    apply h
    apply Nat.eq_of_testBit_eq
    intro k
    rw [Nat.testBit_and, Nat.testBit_two_pow, Nat.zero_testBit]
    by_cases hk : j = k
    · subst hk
      simp [hb]
    · simp [hk]
  · intro h h0
    have h1 : (i &&& 2 ^ j).testBit j = true := by
      rw [Nat.testBit_and, Nat.testBit_two_pow_self, h]
      rfl
    rw [h0, Nat.zero_testBit] at h1
    exact Bool.noConfusion h1

theorem shlBits_bit_iff (i j : Nat) : i &&& shlBits j ≠ 0 ↔ i.testBit (j % 32) = true :=
  mask_bit_iff i (j % 32)

theorem mem_foldl_mask (attrs : List Attribute) (i : Nat) (a : Attribute) :
    ∀ (js : List Nat) (s : AttributeSet),
      a ∈ js.foldl
          (fun subset j =>
            if i &&& shlBits j ≠ 0 then insert (attrs.getD j "") subset else subset) s ↔
        a ∈ s ∨ ∃ j ∈ js, i.testBit (j % 32) = true ∧ attrs.getD j "" = a := by
  intro js
  induction js with
  | nil => intro s; simp
  | cons j js ih =>
    intro s
    rw [List.foldl_cons, ih]
    by_cases hb : i.testBit (j % 32) = true
    · rw [if_pos ((shlBits_bit_iff i j).2 hb), Finset.mem_insert]
      constructor
      · rintro ((h | h) | ⟨k, hk, h⟩)
        · exact Or.inr ⟨j, List.mem_cons_self _ _, hb, h.symm⟩
        · exact Or.inl h
        · exact Or.inr ⟨k, List.mem_cons_of_mem _ hk, h⟩
      · rintro (h | ⟨k, hk, h1, h2⟩)
        · exact Or.inl (Or.inr h)
        · rcases List.mem_cons.1 hk with rfl | hk
          · exact Or.inl (Or.inl h2.symm)
          · exact Or.inr ⟨k, hk, h1, h2⟩
    · rw [if_neg (fun h => hb ((shlBits_bit_iff i j).1 h))]
      constructor
      · rintro (h | ⟨k, hk, h⟩)
        · exact Or.inl h
        · exact Or.inr ⟨k, List.mem_cons_of_mem _ hk, h⟩
      · rintro (h | ⟨k, hk, h1, h2⟩)
        · exact Or.inl h
        · rcases List.mem_cons.1 hk with rfl | hk
          · exact absurd h1 hb
          · exact Or.inr ⟨k, hk, h1, h2⟩

theorem mem_subsetOfMask (attrs : List Attribute) (i : Nat) (a : Attribute) :
    a ∈ subsetOfMask attrs i ↔
      ∃ j, j < attrs.length ∧ i.testBit (j % 32) = true ∧ attrs.getD j "" = a := by
  unfold subsetOfMask
  rw [mem_foldl_mask]
  simp only [Finset.not_mem_empty, false_or, List.mem_range]

theorem subsetOfMask_zero (attrs : List Attribute) : subsetOfMask attrs 0 = ∅ := by
  ext a
  rw [mem_subsetOfMask]
  simp

theorem subsetOfMask_subset (attrs : List Attribute) (i : Nat) :
    subsetOfMask attrs i ⊆ attrs.toFinset := by
  intro a ha
  obtain ⟨j, hj, _, rfl⟩ := (mem_subsetOfMask attrs i a).1 ha
  rw [List.mem_toFinset, List.getD_eq_getElem _ _ hj]
  exact List.getElem_mem hj

theorem getD_inj_of_nodup (attrs : List Attribute) (hnd : attrs.Nodup) (j k : Nat)
    (hj : j < attrs.length) (hk : k < attrs.length)
    (h : attrs.getD j "" = attrs.getD k "") : j = k := by
  rw [List.getD_eq_getElem _ _ hj, List.getD_eq_getElem _ _ hk] at h
  exact (List.Nodup.getElem_inj_iff hnd).1 h

theorem subsetOfMask_subset_iff (attrs : List Attribute) (hnd : attrs.Nodup) (i k : Nat) :
    subsetOfMask attrs i ⊆ subsetOfMask attrs k ↔
      ∀ j, j < attrs.length → i.testBit (j % 32) = true → k.testBit (j % 32) = true := by
  constructor
  · intro h j hj hb
    have hm : attrs.getD j "" ∈ subsetOfMask attrs i :=
      (mem_subsetOfMask attrs i _).2 ⟨j, hj, hb, rfl⟩
    obtain ⟨j2, hj2, hb2, he⟩ := (mem_subsetOfMask attrs k _).1 (h hm)
    rw [← getD_inj_of_nodup attrs hnd j2 j hj2 hj he]
    exact hb2
  · intro h a ha
    obtain ⟨j, hj, hb, he⟩ := (mem_subsetOfMask attrs i a).1 ha
    exact (mem_subsetOfMask attrs k a).2 ⟨j, hj, h j hj hb, he⟩

theorem mask_le_of_bits (n i k : Nat) (hi : i < 2 ^ n)
    (h : ∀ j, j < n → i.testBit j = true → k.testBit j = true) : i ≤ k := by
  have hand : i &&& k = i := by
    apply Nat.eq_of_testBit_eq
    intro j
    rw [Nat.testBit_and]
    by_cases hj : j < n
    · cases hb : i.testBit j
      · rfl
      · rw [h j hj hb]
        rfl
    · have hz : i.testBit j = false :=
        Nat.testBit_lt_two_pow (lt_of_lt_of_le hi (Nat.pow_le_pow_right (by decide) (not_lt.1 hj)))
      rw [hz]
      rfl
  rw [← hand]
  exact Nat.and_le_right

/-- Masks below `2 ^ m`, for `m` at most 32 and at most the number of attributes, are ordered
like the subsets they select: a subset relation between the subsets gives `≤` on the masks. -/
theorem mask_le_of_subset (attrs : List Attribute) (hnd : attrs.Nodup) (m : Nat)
    (hm : m ≤ attrs.length) (hm32 : m ≤ 32) (i k : Nat)
    (hi : i < 2 ^ m) (h : subsetOfMask attrs i ⊆ subsetOfMask attrs k) : i ≤ k := by
  apply mask_le_of_bits m i k hi
  intro j hj hb
  have hmod : j % 32 = j := Nat.mod_eq_of_lt (by omega)
  have h2 := (subsetOfMask_subset_iff attrs hnd i k).1 h j (by omega)
  rw [hmod] at h2
  exact h2 hb

theorem mask_eq_of_subset_eq (attrs : List Attribute) (hnd : attrs.Nodup) (m : Nat)
    (hm : m ≤ attrs.length) (hm32 : m ≤ 32) (i k : Nat)
    (hi : i < 2 ^ m) (hk : k < 2 ^ m)
    (h : subsetOfMask attrs i = subsetOfMask attrs k) : i = k :=
  le_antisymm (mask_le_of_subset attrs hnd m hm hm32 i k hi (h ▸ Finset.Subset.refl _))
    (mask_le_of_subset attrs hnd m hm hm32 k i hk (h ▸ Finset.Subset.refl _))

theorem exists_mask_of_bits (f : Nat → Bool) :
    ∀ n : Nat, ∃ i, i < 2 ^ n ∧ ∀ j, j < n → i.testBit j = f j := by
  intro n
  induction n with
  | zero => exact ⟨0, by decide, fun j hj => absurd hj (Nat.not_lt_zero j)⟩
  | succ n ih =>
    obtain ⟨i, hi, hbits⟩ := ih
    by_cases hf : f n = true
    · refine ⟨2 ^ n + i, by rw [Nat.pow_succ]; omega, ?_⟩
      intro j hj
      rcases Nat.lt_succ_iff_lt_or_eq.1 hj with hlt | rfl
      · rw [Nat.testBit_two_pow_add_gt hlt, hbits j hlt]
      · rw [Nat.testBit_two_pow_add_eq, Nat.testBit_lt_two_pow hi, hf]
        rfl
    · refine ⟨i, by rw [Nat.pow_succ]; omega, ?_⟩
      intro j hj
      rcases Nat.lt_succ_iff_lt_or_eq.1 hj with hlt | rfl
      · exact hbits j hlt
      · rw [Nat.testBit_lt_two_pow hi]
        simpa using hf

theorem exists_mask_of_subset (attrs : List Attribute) (hlen : attrs.length ≤ 32)
    (K : AttributeSet) (hK : K ⊆ attrs.toFinset) :
    ∃ i, i < 2 ^ attrs.length ∧ subsetOfMask attrs i = K := by
  obtain ⟨i, hi, hbits⟩ :=
    exists_mask_of_bits (fun j => decide (attrs.getD j "" ∈ K)) attrs.length
  refine ⟨i, hi, ?_⟩
  ext a
  rw [mem_subsetOfMask]
  constructor
  · rintro ⟨j, hj, hb, rfl⟩
    rw [Nat.mod_eq_of_lt (by omega), hbits j hj] at hb
    exact of_decide_eq_true hb
  · intro ha
    obtain ⟨j, hj, he⟩ := List.getElem_of_mem (List.mem_toFinset.1 (hK ha))
    refine ⟨j, hj, ?_, ?_⟩
    · rw [Nat.mod_eq_of_lt (by omega), hbits j hj, List.getD_eq_getElem _ _ hj, he]
      exact decide_eq_true ha
    · rw [List.getD_eq_getElem _ _ hj, he]

/-! ## The enumeration loop of `findCandidateKeys` -/

theorem keysUpTo_succ (allAttrs : AttributeSet) (attrs : List Attribute)
    (fds : List FunctionalDependency) (m : Nat) :
    keysUpTo allAttrs attrs fds (m + 1) =
      keyStep allAttrs attrs fds (keysUpTo allAttrs attrs fds m) (m + 1) := by
  unfold keysUpTo
  rw [List.range'_1_concat, List.foldl_append, Nat.add_comm 1 m]
  rfl

theorem exists_accepted_below (allAttrs : AttributeSet) (attrs : List Attribute)
    (fds : List FunctionalDependency) :
    ∀ k, 1 ≤ k → closure (subsetOfMask attrs k) fds = allAttrs →
      ∃ i, 1 ≤ i ∧ i ≤ k ∧ AcceptedMask allAttrs attrs fds i ∧
        subsetOfMask attrs i ⊆ subsetOfMask attrs k := by
  intro k
  induction k using Nat.strong_induction_on with
  | _ k ih =>
    intro hk hc
    by_cases hacc : AcceptedMask allAttrs attrs fds k
    · exact ⟨k, hk, le_refl k, hacc, Finset.Subset.refl _⟩
    · have hex : ∃ k2, 1 ≤ k2 ∧ k2 < k ∧ closure (subsetOfMask attrs k2) fds = allAttrs ∧
          subsetOfMask attrs k2 ⊆ subsetOfMask attrs k := by
        by_contra hno
        apply hacc
        refine ⟨hc, ?_⟩
        intro k2 h1 h2 h3 h4
        exact hno ⟨k2, h1, h2, h3, h4⟩
      obtain ⟨k2, h1, h2, h3, h4⟩ := hex
      obtain ⟨i, hi1, hi2, hi3, hi4⟩ := ih k2 h2 h1 h3
      exact ⟨i, hi1, le_trans hi2 (le_of_lt h2), hi3, hi4.trans h4⟩

theorem mem_keysUpTo (allAttrs : AttributeSet) (attrs : List Attribute)
    (fds : List FunctionalDependency) (m : Nat) (K : AttributeSet) :
    K ∈ keysUpTo allAttrs attrs fds m ↔
      ∃ i, 1 ≤ i ∧ i ≤ m ∧ AcceptedMask allAttrs attrs fds i ∧ K = subsetOfMask attrs i := by
  induction m generalizing K with
  | zero =>
    constructor
    · intro h
      exact absurd h (List.not_mem_nil K)
    · rintro ⟨i, h1, h2, _⟩
      omega
  | succ m ih =>
    rw [keysUpTo_succ]
    unfold keyStep
    by_cases hc : closure (subsetOfMask attrs (m + 1)) fds = allAttrs
    · by_cases hany : (keysUpTo allAttrs attrs fds m).any
          (fun key => decide (key ⊆ subsetOfMask attrs (m + 1))) = true
      · rw [if_pos hc, if_pos hany, ih]
        constructor
        · rintro ⟨i, h1, h2, h3, h4⟩
          exact ⟨i, h1, Nat.le_succ_of_le h2, h3, h4⟩
        · rintro ⟨i, h1, h2, h3, h4⟩
          rcases Nat.lt_or_ge i (m + 1) with hlt | hge
          · exact ⟨i, h1, Nat.lt_succ_iff.1 hlt, h3, h4⟩
          · exfalso
            have him : i = m + 1 := le_antisymm h2 hge
            subst him
            obtain ⟨key, hkey, hsub⟩ := List.any_eq_true.1 hany
            obtain ⟨k, hk1, hk2, hk3, rfl⟩ := (ih key).1 hkey
            exact h3.2 k hk1 (Nat.lt_succ_of_le hk2) hk3.1 (of_decide_eq_true hsub)
      · rw [if_pos hc, if_neg hany, List.mem_append, List.mem_singleton, ih]
        constructor
        · rintro (⟨i, h1, h2, h3, h4⟩ | rfl)
          · exact ⟨i, h1, Nat.le_succ_of_le h2, h3, h4⟩
          · refine ⟨m + 1, Nat.le_add_left 1 m, le_refl _, ⟨hc, ?_⟩, rfl⟩
            intro k hk1 hk2 hk3 hk4
            apply hany
            obtain ⟨i, hi1, hi2, hi3, hi4⟩ := exists_accepted_below allAttrs attrs fds k hk1 hk3
            apply List.any_eq_true.2
            refine ⟨subsetOfMask attrs i, ?_, decide_eq_true (hi4.trans hk4)⟩
            exact (ih _).2 ⟨i, hi1, le_trans hi2 (Nat.lt_succ_iff.1 hk2), hi3, rfl⟩
        · rintro ⟨i, h1, h2, h3, h4⟩
          rcases Nat.lt_or_ge i (m + 1) with hlt | hge
          · exact Or.inl ⟨i, h1, Nat.lt_succ_iff.1 hlt, h3, h4⟩
          · have him : i = m + 1 := le_antisymm h2 hge
            subst him
            exact Or.inr h4
    · rw [if_neg hc, ih]
      constructor
      · rintro ⟨i, h1, h2, h3, h4⟩
        exact ⟨i, h1, Nat.le_succ_of_le h2, h3, h4⟩
      · rintro ⟨i, h1, h2, h3, h4⟩
        rcases Nat.lt_or_ge i (m + 1) with hlt | hge
        · exact ⟨i, h1, Nat.lt_succ_iff.1 hlt, h3, h4⟩
        · exfalso
          have him : i = m + 1 := le_antisymm h2 hge
          subst him
          exact hc h3.1

theorem shlBits_eq (k : Nat) : shlBits k = 2 ^ (k % 32) := by
  unfold shlBits
  rw [Nat.one_shiftLeft]

theorem shl1_bound (n : Nat) : (shl1 n - 1).toNat < 2 ^ (n % 32) := by
  have hpos : 0 < 2 ^ (n % 32) := Nat.pow_pos (by decide)
  unfold shl1
  rw [shlBits_eq]
  split_ifs <;> omega

theorem shl1_small (n : Nat) (h : n ≤ 30) : (shl1 n - 1).toNat = 2 ^ n - 1 := by
  have hlt : 2 ^ n < 2 ^ 31 := Nat.pow_lt_pow_right (by decide) (by omega)
  unfold shl1
  rw [shlBits_eq, Nat.mod_eq_of_lt (by omega), if_pos hlt]
  omega

theorem findCandidateKeys_eq (allAttrs : AttributeSet) (fds : List FunctionalDependency) :
    findCandidateKeys allAttrs fds =
      keysUpTo allAttrs (sortedAttrs allAttrs) fds
        (shl1 (sortedAttrs allAttrs).length - 1).toNat := rfl

theorem findCandidateKeys_small (allAttrs : AttributeSet) (fds : List FunctionalDependency)
    (h : allAttrs.card ≤ 30) :
    findCandidateKeys allAttrs fds =
      keysUpTo allAttrs (sortedAttrs allAttrs) fds (2 ^ allAttrs.card - 1) := by
  rw [findCandidateKeys_eq, length_sortedAttrs, shl1_small _ h]

theorem findCandidateKeys_large (allAttrs : AttributeSet) (fds : List FunctionalDependency)
    (h : allAttrs.card = 31) : findCandidateKeys allAttrs fds = [] := by
  rw [findCandidateKeys_eq, length_sortedAttrs, h]
  rfl

theorem mem_findCandidateKeys (allAttrs : AttributeSet) (fds : List FunctionalDependency)
    (K : AttributeSet) (hK : K ∈ findCandidateKeys allAttrs fds) :
    ∃ i, 1 ≤ i ∧ i < 2 ^ ((sortedAttrs allAttrs).length % 32) ∧
      AcceptedMask allAttrs (sortedAttrs allAttrs) fds i ∧
      K = subsetOfMask (sortedAttrs allAttrs) i := by
  rw [findCandidateKeys_eq] at hK
  obtain ⟨i, h1, h2, h3, h4⟩ := (mem_keysUpTo _ _ _ _ _).1 hK
  exact ⟨i, h1, lt_of_le_of_lt h2 (shl1_bound _), h3, h4⟩

theorem key_subset_universe (allAttrs : AttributeSet) (fds : List FunctionalDependency)
    (K : AttributeSet) (hK : K ∈ findCandidateKeys allAttrs fds) : K ⊆ allAttrs := by
  obtain ⟨i, _, _, _, rfl⟩ := mem_findCandidateKeys allAttrs fds K hK
  have := subsetOfMask_subset (sortedAttrs allAttrs) i
  rwa [toFinset_sortedAttrs] at this

theorem key_closure (allAttrs : AttributeSet) (fds : List FunctionalDependency)
    (K : AttributeSet) (hK : K ∈ findCandidateKeys allAttrs fds) :
    closure K fds = allAttrs := by
  obtain ⟨i, _, _, h3, rfl⟩ := mem_findCandidateKeys allAttrs fds K hK
  exact h3.1

theorem exists_mask_of_nonempty (allAttrs K : AttributeSet) (hU : allAttrs.card ≤ 32)
    (hK : K ⊆ allAttrs) (hne : K.Nonempty) :
    ∃ i, 1 ≤ i ∧ i < 2 ^ (sortedAttrs allAttrs).length ∧
      subsetOfMask (sortedAttrs allAttrs) i = K := by
  have hK2 : K ⊆ (sortedAttrs allAttrs).toFinset := by
    rw [toFinset_sortedAttrs]
    exact hK
  have hlen : (sortedAttrs allAttrs).length ≤ 32 := by
    rw [length_sortedAttrs]
    exact hU
  obtain ⟨i, hi, he⟩ := exists_mask_of_subset (sortedAttrs allAttrs) hlen K hK2
  refine ⟨i, ?_, hi, he⟩
  rcases Nat.eq_zero_or_pos i with h0 | hpos
  · exfalso
    rw [h0, subsetOfMask_zero] at he
    rw [← he] at hne
    exact Finset.not_nonempty_empty hne
  · exact hpos

theorem closure_empty_of_lhs_nonempty (fds : List FunctionalDependency)
    (hF : ∀ fd ∈ fds, fd.lhs.Nonempty) : closure ∅ fds = ∅ := by
  apply closure_of_closed
  intro fd hfd hl
  exfalso
  obtain ⟨a, ha⟩ := hF fd hfd
  exact Finset.not_mem_empty a (hl ha)

theorem accepted_minimal (allAttrs : AttributeSet) (fds : List FunctionalDependency)
    (hU : allAttrs.card ≤ 32)
    (hF : ∀ fd ∈ fds, fd.lhs.Nonempty) (i : Nat) (hi1 : 1 ≤ i)
    (hi2 : i < 2 ^ (sortedAttrs allAttrs).length)
    (hacc : AcceptedMask allAttrs (sortedAttrs allAttrs) fds i)
    (K : AttributeSet) (hK : K ⊂ subsetOfMask (sortedAttrs allAttrs) i) :
    closure K fds ≠ allAttrs := by
  intro hc
  have hlen := length_sortedAttrs allAttrs
  have hsubU : subsetOfMask (sortedAttrs allAttrs) i ⊆ allAttrs := by
    have := subsetOfMask_subset (sortedAttrs allAttrs) i
    rwa [toFinset_sortedAttrs] at this
  rcases Finset.eq_empty_or_nonempty K with he | hne
  · subst he
    rw [closure_empty_of_lhs_nonempty fds hF] at hc
    subst hc
    rw [Finset.card_empty] at hlen
    rw [hlen] at hi2
    omega
  · obtain ⟨k, hk1, hk2, rfl⟩ :=
      exists_mask_of_nonempty allAttrs K hU (hK.1.trans hsubU) hne
    have hle := mask_le_of_subset (sortedAttrs allAttrs) (nodup_sortedAttrs allAttrs)
      (sortedAttrs allAttrs).length (le_refl _) (by omega) k i hk2 hK.1
    have hne2 : k ≠ i := by
      rintro rfl
      exact (Finset.ssubset_iff_subset_ne.1 hK).2 rfl
    exact hacc.2 k hk1 (lt_of_le_of_ne hle hne2) hc hK.1

theorem accepted_of_minimal (allAttrs : AttributeSet) (fds : List FunctionalDependency)
    (hU : allAttrs.card ≤ 32)
    (i : Nat) (hi : i < 2 ^ (sortedAttrs allAttrs).length)
    (hc : closure (subsetOfMask (sortedAttrs allAttrs) i) fds = allAttrs)
    (hmin : ∀ K', K' ⊂ subsetOfMask (sortedAttrs allAttrs) i → closure K' fds ≠ allAttrs) :
    AcceptedMask allAttrs (sortedAttrs allAttrs) fds i := by
  have hlen := length_sortedAttrs allAttrs
  refine ⟨hc, ?_⟩
  intro k _ hk2 hk3 hk4
  refine hmin _ (Finset.ssubset_iff_subset_ne.2 ⟨hk4, ?_⟩) hk3
  intro he
  have hle := mask_le_of_subset (sortedAttrs allAttrs) (nodup_sortedAttrs allAttrs)
    (sortedAttrs allAttrs).length (le_refl _) (by omega) i k hi
    (he ▸ Finset.Subset.refl _)
  omega

/-! ## The relation set of `normalize3NF` -/

theorem lexLess_irrefl (l : List Attribute) : lexLess l l = false := by
  induction l with
  | nil => rfl
  | cons a as ih =>
    unfold lexLess
    rw [if_neg (lt_irrefl _), if_neg (lt_irrefl _)]
    exact ih

theorem lexLess_eq_of_not (l1 : List Attribute) :
    ∀ l2 : List Attribute, lexLess l1 l2 = false → lexLess l2 l1 = false → l1 = l2 := by
  induction l1 with
  | nil =>
    intro l2 h1 _
    cases l2 with
    | nil => rfl
    | cons b bs => exact Bool.noConfusion h1
  | cons a as ih =>
    intro l2 h1 h2
    cases l2 with
    | nil => exact Bool.noConfusion h2
    | cons b bs =>
      unfold lexLess at h1 h2
      by_cases hab : a.toList < b.toList
      · rw [if_pos hab] at h1
        exact Bool.noConfusion h1
      · by_cases hba : b.toList < a.toList
        · rw [if_pos hba] at h2
          exact Bool.noConfusion h2
        · rw [if_neg hab, if_neg hba] at h1
          rw [if_neg hba, if_neg hab] at h2
          have he : a.toList = b.toList := by
            rcases lt_trichotomy a.toList b.toList with h | h | h
            · exact absurd h hab
            · exact h
            · exact absurd h hba
          rw [String.toList_inj.1 he, ih bs h1 h2]

theorem relLess_irrefl (a : AttributeSet) : relLess a a = false :=
  lexLess_irrefl _

theorem eq_of_not_relLess (a b : AttributeSet) (h1 : relLess a b = false)
    (h2 : relLess b a = false) : a = b :=
  sortedAttrs_injective a b (lexLess_eq_of_not _ _ h1 h2)

theorem mem_insertRel (rel x : AttributeSet) :
    ∀ rs : List AttributeSet, x ∈ insertRel rel rs ↔ x = rel ∨ x ∈ rs := by
  intro rs
  induction rs with
  | nil => simp [insertRel]
  | cons r rs ih =>
    unfold insertRel
    by_cases h1 : relLess rel r = true
    · rw [if_pos h1, List.mem_cons]
    · by_cases h2 : relLess r rel = true
      · rw [if_neg h1, if_pos h2, List.mem_cons, ih, List.mem_cons]
        tauto
      · rw [if_neg h1, if_neg h2]
        have he : rel = r := eq_of_not_relLess rel r (by simpa using h1) (by simpa using h2)
        subst he
        rw [List.mem_cons]
        tauto

theorem countRel_iff (key : AttributeSet) (relations : List AttributeSet) :
    countRel key relations = true ↔ key ∈ relations := by
  unfold countRel
  rw [List.any_eq_true]
  constructor
  · rintro ⟨r, hr, h⟩
    simp only [Bool.and_eq_true, Bool.not_eq_true'] at h
    rw [← eq_of_not_relLess r key h.1 h.2]
    exact hr
  · intro h
    refine ⟨key, h, ?_⟩
    rw [relLess_irrefl]
    rfl

theorem keyCovered_iff (relations candidateKeys : List AttributeSet) :
    keyCovered relations candidateKeys = true ↔ ∃ key ∈ candidateKeys, key ∈ relations := by
  unfold keyCovered
  rw [List.any_eq_true]
  constructor
  · rintro ⟨key, hk, h⟩
    exact ⟨key, hk, (countRel_iff key relations).1 h⟩
  · rintro ⟨key, hk, h⟩
    exact ⟨key, hk, (countRel_iff key relations).2 h⟩

theorem mem_foldl_insertRel (x : AttributeSet) (fds : List FunctionalDependency) :
    ∀ init : List AttributeSet,
      x ∈ fds.foldl (fun relations fd => insertRel (fd.lhs ∪ fd.rhs) relations) init ↔
        x ∈ init ∨ ∃ fd ∈ fds, x = fd.lhs ∪ fd.rhs := by
  induction fds with
  | nil => intro init; simp
  | cons fd fds ih =>
    intro init
    rw [List.foldl_cons, ih, mem_insertRel]
    constructor
    · rintro ((h | h) | ⟨g, hg, h⟩)
      · exact Or.inr ⟨fd, List.mem_cons_self _ _, h⟩
      · exact Or.inl h
      · exact Or.inr ⟨g, List.mem_cons_of_mem _ hg, h⟩
    · rintro (h | ⟨g, hg, h⟩)
      · exact Or.inl (Or.inr h)
      · rcases List.mem_cons.1 hg with rfl | hg
        · exact Or.inl (Or.inl h)
        · exact Or.inr ⟨g, hg, h⟩

theorem mem_fdRelations (x : AttributeSet) (fds : List FunctionalDependency) :
    x ∈ fdRelations fds ↔ ∃ fd ∈ fds, x = fd.lhs ∪ fd.rhs := by
  unfold fdRelations
  rw [mem_foldl_insertRel]
  simp

theorem mem_attrsOf (a : Attribute) (relations : List AttributeSet) :
    a ∈ attrsOf relations ↔ ∃ r ∈ relations, a ∈ r := by
  induction relations with
  | nil => simp [attrsOf]
  | cons r rs ih =>
    have hr : attrsOf (r :: rs) = r ∪ attrsOf rs := rfl
    rw [hr, Finset.mem_union, ih]
    simp

/-- With a non-empty key list the decomposition prints the relations of the dependencies,
together with the first key when no key is among them. -/
theorem normalize3NF_of_ne_nil (fds : List FunctionalDependency)
    (candidateKeys : List AttributeSet) (h : candidateKeys ≠ []) :
    ∃ relations, normalize3NF fds candidateKeys = some relations ∧
      ∀ x, x ∈ relations ↔
        (∃ fd ∈ fds, x = fd.lhs ∪ fd.rhs) ∨
          (x = candidateKeys.head h ∧ keyCovered (fdRelations fds) candidateKeys = false) := by
  unfold normalize3NF
  cases candidateKeys with
  | nil => exact absurd rfl h
  | cons key keys =>
    by_cases hcov : keyCovered (fdRelations fds) (key :: keys) = true
    · refine ⟨fdRelations fds, by simp only [hcov, if_true], ?_⟩
      intro x
      rw [mem_fdRelations]
      simp [hcov]
    · refine ⟨insertRel key (fdRelations fds), by simp [hcov], ?_⟩
      intro x
      rw [mem_insertRel, mem_fdRelations]
      simp only [List.head_cons]
      have hf : keyCovered (fdRelations fds) (key :: keys) = false := by simpa using hcov
      rw [hf]
      constructor
      · rintro (hx | hx)
        · exact Or.inr ⟨hx, rfl⟩
        · exact Or.inl hx
      · rintro (hx | ⟨hx, _⟩)
        · exact Or.inr hx
        · exact Or.inl hx

theorem normalize3NF_nil (fds : List FunctionalDependency) : normalize3NF fds [] = none := by
  unfold normalize3NF
  simp [keyCovered]

/-! ## Closure: smallest closed superset, extensive, idempotent -/

/-- C1: for every attribute set `S` and dependency list `F`, `closure S F` is closed under `F`,
contains `S`, and is contained in every superset of `S` that is closed under `F`. -/
theorem closure_smallest_closed_superset (S : AttributeSet) (F : List FunctionalDependency) :
    (∀ fd ∈ F, fd.lhs ⊆ closure S F → fd.rhs ⊆ closure S F) ∧ S ⊆ closure S F ∧
      ∀ T : AttributeSet, S ⊆ T → (∀ fd ∈ F, fd.lhs ⊆ T → fd.rhs ⊆ T) → closure S F ⊆ T :=
  ⟨closure_closed S F, closure_superset S F, fun T hS hT => closure_least S F T hS hT⟩

theorem closure_smallest_closed_superset_witness :
    closure {"A"} exampleFDs ⊆ {"A", "B", "C", "D"} :=
  (closure_smallest_closed_superset {"A"} exampleFDs).2.2 {"A", "B", "C", "D"}
    (by decide) (by decide)

/-- C9: every attribute set is contained in its closure. -/
theorem subset_closure (S : AttributeSet) (F : List FunctionalDependency) :
    S ⊆ closure S F :=
  closure_superset S F

/-- C10: the closure is idempotent, `closure (closure S F) F = closure S F`. -/
theorem closure_idempotent (S : AttributeSet) (F : List FunctionalDependency) :
    closure (closure S F) F = closure S F :=
  closure_of_closed (closure S F) F (closure_closed S F)

/-! ## Candidate keys -/

/-- For a universe of at most 31 attributes and dependencies with non-empty left-hand sides,
every key returned by `findCandidateKeys U F` has closure `U` and no proper subset of it has
closure `U`. -/
theorem findCandidateKeys_keys_minimal (U : AttributeSet) (F : List FunctionalDependency)
    (hU : U.card ≤ 31) (hF : ∀ fd ∈ F, fd.lhs.Nonempty) (K : AttributeSet)
    (hK : K ∈ findCandidateKeys U F) :
    closure K F = U ∧ ∀ K' : AttributeSet, K' ⊂ K → closure K' F ≠ U := by
  obtain ⟨i, h1, h2, h3, rfl⟩ := mem_findCandidateKeys U F K hK
  have hlen := length_sortedAttrs U
  have hmod : (sortedAttrs U).length % 32 = (sortedAttrs U).length :=
    Nat.mod_eq_of_lt (by omega)
  rw [hmod] at h2
  exact ⟨h3.1, fun K' hK' => accepted_minimal U F (by omega) hF i h1 h2 h3 K' hK'⟩

theorem findCandidateKeys_keys_minimal_witness :
    closure {"A"} exampleFDs = {"A", "B", "C"} ∧
      ∀ K' : AttributeSet, K' ⊂ {"A"} → closure K' exampleFDs ≠ {"A", "B", "C"} :=
  findCandidateKeys_keys_minimal {"A", "B", "C"} exampleFDs (by decide) (by decide)
    {"A"} (by decide)

/-- C2 fails on the code: for the 33-attribute universe and the dependency
`a01 → universe33`, whose left-hand side is non-empty, the bound `1 << 33` is `2`, the only
mask is `1`, and its tests `1 & (1 << 0)` and `1 & (1 << 32)` both succeed: the returned key
list is `[{a01, a33}]`, although the proper subset `{a01}` already has the universe as its
closure. -/
theorem findCandidateKeys_non_minimal_33 :
    (∀ fd ∈ fds33, fd.lhs.Nonempty) ∧
      findCandidateKeys universe33 fds33 = [{"a33", "a01"}] ∧
      ({"a01"} : AttributeSet) ⊂ {"a33", "a01"} ∧
      closure {"a01"} fds33 = universe33 :=
  ⟨by decide, by decide, by decide, by decide⟩

/-- For a universe `U` of at most 30 attributes, every non-empty subset `K` of `U` whose
closure is `U`, and none of whose proper subsets has closure `U`, is in the list returned by
`findCandidateKeys U F`. -/
theorem findCandidateKeys_complete_small (U : AttributeSet) (F : List FunctionalDependency)
    (hU : U.card ≤ 30) (K : AttributeSet) (hKU : K ⊆ U) (hne : K.Nonempty)
    (hc : closure K F = U) (hmin : ∀ K' : AttributeSet, K' ⊂ K → closure K' F ≠ U) :
    K ∈ findCandidateKeys U F := by
  rw [findCandidateKeys_small U F hU]
  obtain ⟨i, h1, h2, rfl⟩ := exists_mask_of_nonempty U K (by omega) hKU hne
  rw [mem_keysUpTo]
  have h3 := h2
  rw [length_sortedAttrs] at h3
  exact ⟨i, h1, by omega, accepted_of_minimal U F (by omega) i h2 hc hmin, rfl⟩

theorem findCandidateKeys_complete_small_witness :
    {"A"} ∈ findCandidateKeys {"A", "B", "C"} exampleFDs :=
  findCandidateKeys_complete_small {"A", "B", "C"} exampleFDs (by decide) {"A"} (by decide)
    (by decide) (by decide)
    (fun K' hK' => by
      have he : K' = ∅ := by
        rcases Finset.subset_singleton_iff.1 hK'.1 with h | h
        · exact h
        · exact absurd h (Finset.ssubset_iff_subset_ne.1 hK').2
      subst he
      decide)

/-- C3 fails on the code: with 31 attributes and no dependency, the universe is a non-empty
subset whose closure is the universe and no proper subset has that closure, yet
`findCandidateKeys` returns the empty list, because the loop bound `1 << 31` is negative and
the loop over the masks never runs. -/
theorem findCandidateKeys_misses_key_31 :
    universe31 ⊆ universe31 ∧ universe31.Nonempty ∧ closure universe31 [] = universe31 ∧
      (∀ K' : AttributeSet, K' ⊂ universe31 → closure K' [] ≠ universe31) ∧
      findCandidateKeys universe31 [] = [] ∧
      universe31 ∉ findCandidateKeys universe31 [] := by
  have hclosed : ∀ T : AttributeSet, closure T [] = T := fun T =>
    closure_of_closed T [] (fun fd hfd => absurd hfd (List.not_mem_nil fd))
  have h31 : findCandidateKeys universe31 [] = [] := by decide
  refine ⟨Finset.Subset.refl _, ⟨"a01", by decide⟩, hclosed _, ?_, h31, ?_⟩
  · intro K' hK'
    rw [hclosed]
    exact (Finset.ssubset_iff_subset_ne.1 hK').2
  · rw [h31]
    exact List.not_mem_nil _

/-- C4: no key returned by `findCandidateKeys U F` is a proper superset of another key
returned by the same call. -/
theorem findCandidateKeys_no_proper_superset (U : AttributeSet)
    (F : List FunctionalDependency) (K1 K2 : AttributeSet)
    (h1 : K1 ∈ findCandidateKeys U F) (h2 : K2 ∈ findCandidateKeys U F) : ¬ K1 ⊂ K2 := by
  intro hss
  obtain ⟨i, hi1, hi2, hi3, rfl⟩ := mem_findCandidateKeys U F K1 h1
  obtain ⟨k, _, _, hk3, rfl⟩ := mem_findCandidateKeys U F K2 h2
  have hle := mask_le_of_subset (sortedAttrs U) (nodup_sortedAttrs U)
    ((sortedAttrs U).length % 32) (Nat.mod_le _ _)
    (le_of_lt (Nat.mod_lt _ (by decide))) i k hi2 hss.1
  have hne : i ≠ k := by
    rintro rfl
    exact (Finset.ssubset_iff_subset_ne.1 hss).2 rfl
  exact hk3.2 i hi1 (lt_of_le_of_ne hle hne) hi3.1 hss.1

theorem findCandidateKeys_no_proper_superset_witness :
    ¬ (({"B", "A"} : AttributeSet) ⊂ {"C", "B"}) :=
  findCandidateKeys_no_proper_superset {"A", "B", "C"}
    [⟨{"A", "B"}, {"C"}⟩, ⟨{"C"}, {"A"}⟩] {"B", "A"} {"C", "B"} (by decide) (by decide)

theorem exists_key_of_closed (U : AttributeSet)
    (F : List FunctionalDependency) (hne : U.Nonempty) (hU : U.card ≤ 30)
    (hcl : ∀ fd ∈ F, fd.lhs ⊆ U → fd.rhs ⊆ U) :
    findCandidateKeys U F ≠ [] := by
  rw [findCandidateKeys_small U F hU]
  obtain ⟨i, h1, h2, he⟩ :=
    exists_mask_of_nonempty U U (by omega) (Finset.Subset.refl _) hne
  have hc : closure (subsetOfMask (sortedAttrs U) i) F = U := by
    rw [he]
    exact closure_of_closed U F hcl
  obtain ⟨k, hk1, hk2, hk3, _⟩ := exists_accepted_below U (sortedAttrs U) F i h1 hc
  rw [length_sortedAttrs] at h2
  apply List.ne_nil_of_mem
  exact (mem_keysUpTo U (sortedAttrs U) F _ _).2 ⟨k, hk1, by omega, hk3, rfl⟩

/-- C5, as the code has it: for a non-empty universe `U` of at most 30 attributes that is
closed under `F` (every dependency with left-hand side in `U` has its right-hand side in
`U`), `findCandidateKeys U F` returns at least one key. -/
theorem findCandidateKeys_nonempty_of_closed (U : AttributeSet)
    (F : List FunctionalDependency) (hne : U.Nonempty) (hU : U.card ≤ 30)
    (hcl : ∀ fd ∈ F, fd.lhs ⊆ U → fd.rhs ⊆ U) :
    findCandidateKeys U F ≠ [] :=
  exists_key_of_closed U F hne hU hcl

theorem findCandidateKeys_nonempty_of_closed_witness :
    findCandidateKeys {"A", "B", "C"} exampleFDs ≠ [] :=
  findCandidateKeys_nonempty_of_closed {"A", "B", "C"} exampleFDs ⟨"A", by decide⟩
    (by decide) (by decide)

/-- C5 fails as stated: for the non-empty universe `{A}` and the dependency `A → B`, whose
right-hand side is outside the universe, `findCandidateKeys` returns the empty list; and for
the 31-attribute universe without dependencies it returns the empty list as well. -/
theorem findCandidateKeys_empty_for_nonempty_universe :
    (({"A"} : AttributeSet).Nonempty ∧
        findCandidateKeys {"A"} [⟨{"A"}, {"B"}⟩] = []) ∧
      (universe31.Nonempty ∧ findCandidateKeys universe31 [] = []) :=
  ⟨⟨⟨"A", by decide⟩, by decide⟩, ⟨"a01", by decide⟩, by decide⟩

/-! ## Decomposition -/

theorem decomposition_covers_universe (U : AttributeSet) (F : List FunctionalDependency)
    (hne : findCandidateKeys U F ≠ []) :
    ∃ relations, normalize3NF F (findCandidateKeys U F) = some relations ∧
      U ⊆ attrsOf relations ∧ ((∀ fd ∈ F, fd.lhs ⊆ U) → attrsOf relations = U) := by
  obtain ⟨relations, hrel, hmem⟩ := normalize3NF_of_ne_nil F (findCandidateKeys U F) hne
  have hcover : U ⊆ attrsOf relations := by
    have hkey : ∃ K ∈ findCandidateKeys U F, K ∈ relations := by
      by_cases hcov : keyCovered (fdRelations F) (findCandidateKeys U F) = true
      · obtain ⟨K, hK1, hK2⟩ := (keyCovered_iff _ _).1 hcov
        exact ⟨K, hK1, (hmem K).2 (Or.inl ((mem_fdRelations K F).1 hK2))⟩
      · exact ⟨(findCandidateKeys U F).head hne, List.head_mem hne,
          (hmem _).2 (Or.inr ⟨rfl, by simpa using hcov⟩)⟩
    obtain ⟨K, hK1, hK2⟩ := hkey
    intro a ha
    rw [← key_closure U F K hK1] at ha
    rcases Finset.mem_union.1 (closure_subset_rhs K F ha) with ha | ha
    · exact (mem_attrsOf a relations).2 ⟨K, hK2, ha⟩
    · obtain ⟨fd, hfd, h2⟩ := (mem_rhsAttrs a F).1 ha
      exact (mem_attrsOf a relations).2
        ⟨fd.lhs ∪ fd.rhs, (hmem _).2 (Or.inl ⟨fd, hfd, rfl⟩), Finset.mem_union_right _ h2⟩
  refine ⟨relations, hrel, hcover, ?_⟩
  intro hlhs
  have hK0 : (findCandidateKeys U F).head hne ∈ findCandidateKeys U F := List.head_mem hne
  have hclosedU : ClosedUnder F U := by
    rw [← key_closure U F _ hK0]
    exact closure_closed _ F
  apply Finset.Subset.antisymm _ hcover
  intro a ha
  obtain ⟨r, hr, har⟩ := (mem_attrsOf a relations).1 ha
  rcases (hmem r).1 hr with ⟨fd, hfd, rfl⟩ | ⟨rfl, _⟩
  · rcases Finset.mem_union.1 har with h1 | h1
    · exact hlhs fd hfd h1
    · exact hclosedU fd hfd (hlhs fd hfd) h1
  · exact key_subset_universe U F _ hK0 har

/-- C6, as the code has it: for every universe `U` and dependency list `F` for which
`findCandidateKeys U F` returns a non-empty key list, the decomposition of `F` with these
keys prints relations whose attributes cover `U`; their union equals `U` when every
dependency has its left-hand side inside `U`. -/
theorem normalize3NF_attrs_cover (U : AttributeSet) (F : List FunctionalDependency)
    (hne : findCandidateKeys U F ≠ []) :
    ∃ relations, normalize3NF F (findCandidateKeys U F) = some relations ∧
      U ⊆ attrsOf relations ∧ ((∀ fd ∈ F, fd.lhs ⊆ U) → attrsOf relations = U) :=
  decomposition_covers_universe U F hne

theorem normalize3NF_attrs_cover_witness :
    ∃ relations,
      normalize3NF exampleFDs (findCandidateKeys {"A", "B", "C"} exampleFDs) =
        some relations ∧
      {"A", "B", "C"} ⊆ attrsOf relations ∧
      ((∀ fd ∈ exampleFDs, fd.lhs ⊆ {"A", "B", "C"}) → attrsOf relations = {"A", "B", "C"}) :=
  normalize3NF_attrs_cover {"A", "B", "C"} exampleFDs (by decide)

/-- C6 fails as stated: for the universe `{A}` and the dependency `Z → Y`, the key list is
`[{A}]`, and the printed relations `{A}` and `{Y, Z}` have the attribute union `{A, Y, Z}`,
which is not the universe. -/
theorem normalize3NF_attrs_exceed_universe :
    findCandidateKeys {"A"} [⟨{"Z"}, {"Y"}⟩] = [{"A"}] ∧
      ([{"A"}] : List AttributeSet) ≠ [] ∧
      ∃ relations, normalize3NF [⟨{"Z"}, {"Y"}⟩] [{"A"}] = some relations ∧
        attrsOf relations = {"A", "Y", "Z"} ∧ attrsOf relations ≠ {"A"} :=
  ⟨by decide, List.cons_ne_nil _ _, [{"A"}, {"Z"} ∪ {"Y"}], by decide, by decide, by decide⟩

/-- C7: for a non-empty candidate-key list, `normalize3NF` prints at least one relation whose
attribute set is one of the given candidate keys. -/
theorem normalize3NF_contains_key (F : List FunctionalDependency)
    (candidateKeys : List AttributeSet) (hne : candidateKeys ≠ []) :
    ∃ relations, normalize3NF F candidateKeys = some relations ∧
      ∃ r ∈ relations, r ∈ candidateKeys := by
  obtain ⟨relations, hrel, hmem⟩ := normalize3NF_of_ne_nil F candidateKeys hne
  refine ⟨relations, hrel, ?_⟩
  by_cases hcov : keyCovered (fdRelations F) candidateKeys = true
  · obtain ⟨K, hK1, hK2⟩ := (keyCovered_iff _ _).1 hcov
    exact ⟨K, (hmem K).2 (Or.inl ((mem_fdRelations K F).1 hK2)), hK1⟩
  · exact ⟨candidateKeys.head hne, (hmem _).2 (Or.inr ⟨rfl, by simpa using hcov⟩),
      List.head_mem hne⟩

theorem normalize3NF_contains_key_witness :
    ∃ relations, normalize3NF exampleFDs [{"A"}] = some relations ∧
      ∃ r ∈ relations, r ∈ ([{"A"}] : List AttributeSet) :=
  normalize3NF_contains_key exampleFDs [{"A"}] (List.cons_ne_nil _ _)

/-- C8 fails on the code: with an empty candidate-key list, `normalize3NF` reaches the
unguarded access `candidateKeys[0]`, which is out of bounds; no relation list and no error
report is produced. -/
theorem normalize3NF_empty_keys_out_of_bounds (F : List FunctionalDependency) :
    keyCovered (fdRelations F) [] = false ∧ ([] : List AttributeSet)[0]? = none ∧
      normalize3NF F [] = none :=
  ⟨rfl, rfl, normalize3NF_nil F⟩

/-! ## Closure: monotone, order-independent, terminating -/

theorem closurePass_measure (fds : List FunctionalDependency) (result : AttributeSet)
    (hc : (closurePass fds (result, false)).2 = true) :
    (rhsAttrs fds \ (closurePass fds (result, false)).1).card
      < (rhsAttrs fds \ result).card := by
  have hss : result ⊂ (closurePass fds (result, false)).1 := by
    rcases closurePass_flag_true fds (result, false) hc with h0 | h0
    · exact absurd h0 (by simp)
    · exact h0
  have hb := closurePass_bound fds (result, false)
  apply Finset.card_lt_card
  obtain ⟨x, hx1, hx2⟩ := Finset.exists_of_ssubset hss
  refine Finset.ssubset_iff_subset_ne.2 ⟨?_, ?_⟩
  · intro y hy
    simp only [Finset.mem_sdiff] at hy ⊢
    exact ⟨hy.1, fun hyr => hy.2 (hss.1 hyr)⟩
  · intro heq
    have hx3 : x ∈ rhsAttrs fds \ result := by
      have h3 := hb hx1
      simp only [Finset.mem_union] at h3
      rcases h3 with h3 | h3
      · exact absurd h3 hx2
      · exact Finset.mem_sdiff.2 ⟨h3, hx2⟩
    rw [← heq] at hx3
    exact (Finset.mem_sdiff.1 hx3).2 hx1

theorem closureLoop_succ (fds : List FunctionalDependency) :
    ∀ (fuel : Nat) (result : AttributeSet), (rhsAttrs fds \ result).card < fuel →
      closureLoop fds (fuel + 1) result = closureLoop fds fuel result := by
  intro fuel
  induction fuel with
  | zero => intro result h; exact absurd h (Nat.not_lt_zero _)
  | succ fuel ih =>
    intro result h
    have hstep : ∀ (f : Nat) (r : AttributeSet), closureLoop fds (f + 1) r =
        if (closurePass fds (r, false)).2 = true then
          closureLoop fds f (closurePass fds (r, false)).1
        else (closurePass fds (r, false)).1 := fun _ _ => rfl
    rw [hstep (fuel + 1) result, hstep fuel result]
    by_cases hc : (closurePass fds (result, false)).2 = true
    · rw [if_pos hc, if_pos hc]
      apply ih
      have := closurePass_measure fds result hc
      omega
    · rw [if_neg hc, if_neg hc]

theorem closureLoop_enough (attrs : AttributeSet) (fds : List FunctionalDependency) :
    ∀ fuel, (rhsAttrs fds \ attrs).card + 1 ≤ fuel →
      closureLoop fds fuel attrs = closure attrs fds := by
  intro fuel h
  induction fuel, h using Nat.le_induction with
  | base => rfl
  | succ fuel hle ih =>
    rw [closureLoop_succ fds fuel attrs (by omega)]
    exact ih

theorem closedUnder_perm (F G : List FunctionalDependency) (h : G.Perm F) (T : AttributeSet)
    (hT : ClosedUnder F T) : ClosedUnder G T :=
  fun fd hfd => hT fd (h.mem_iff.1 hfd)

/-- C11: the closure is monotone, `S ⊆ T` gives `closure S F ⊆ closure T F`. -/
theorem closure_monotone (F : List FunctionalDependency) (S T : AttributeSet) (h : S ⊆ T) :
    closure S F ⊆ closure T F :=
  closure_least S F _ (h.trans (closure_superset T F)) (closure_closed T F)

theorem closure_monotone_witness :
    closure {"B"} exampleFDs ⊆ closure {"A", "B"} exampleFDs :=
  closure_monotone exampleFDs {"B"} {"A", "B"} (by decide)

/-- C16: the closure does not depend on the order of the dependency list: for a permutation
`G` of `F`, `closure S G = closure S F`. -/
theorem closure_perm (S : AttributeSet) (F G : List FunctionalDependency) (h : G.Perm F) :
    closure S G = closure S F :=
  Finset.Subset.antisymm
    (closure_least S G _ (closure_superset S F)
      (closedUnder_perm F G h _ (closure_closed S F)))
    (closure_least S F _ (closure_superset S G)
      (closedUnder_perm G F h.symm _ (closure_closed S G)))

theorem closure_perm_witness :
    closure {"A"} [⟨{"B"}, {"C"}⟩, ⟨{"A"}, {"B"}⟩] = closure {"A"} exampleFDs :=
  closure_perm {"A"} exampleFDs [⟨{"B"}, {"C"}⟩, ⟨{"A"}, {"B"}⟩] (List.Perm.swap _ _ _)

/-- C17: the fixpoint loop of `closure S F` terminates.  A pass that sets `changed` strictly
grows the result, the result stays inside `S` together with the right-hand-side attributes
of `F`, every round count from the number of missing right-hand-side attributes plus one
on gives the same value, and the pass over that value leaves it and `changed = false`. -/
theorem closure_terminates (S : AttributeSet) (F : List FunctionalDependency) :
    (∀ result : AttributeSet, (closurePass F (result, false)).2 = true →
        result ⊂ (closurePass F (result, false)).1) ∧
      closure S F ⊆ S ∪ rhsAttrs F ∧
      (∀ fuel, (rhsAttrs F \ S).card + 1 ≤ fuel → closureLoop F fuel S = closure S F) ∧
      closurePass F (closure S F, false) = (closure S F, false) := by
  refine ⟨?_, closure_subset_rhs S F, closureLoop_enough S F, ?_⟩
  · intro result hc
    rcases closurePass_flag_true F (result, false) hc with h0 | h0
    · exact absurd h0 (by simp)
    · exact h0
  · exact closurePass_closed F _ (closure_closed S F)

theorem closure_terminates_witness :
    closureLoop exampleFDs 7 {"A"} = closure {"A"} exampleFDs :=
  (closure_terminates {"A"} exampleFDs).2.2.1 7 (by decide)

/-! ## The worked example and the empty universe -/

/-- C12: on the universe `{A, B, C}` with `A → B`, `B → C`, the closure of `{A}` is
`{A, B, C}`, the only candidate key is `{A}`, and the decomposition prints exactly the three
relations `{A}`, `{A, B}`, `{B, C}`, whose attribute union is `{A, B, C}`. -/
theorem worked_example :
    closure {"A"} exampleFDs = {"A", "B", "C"} ∧
      findCandidateKeys {"A", "B", "C"} exampleFDs = [{"A"}] ∧
      ∃ relations, normalize3NF exampleFDs [{"A"}] = some relations ∧
        relations.length = 3 ∧
        (∀ x, x ∈ relations ↔ x = {"A", "B"} ∨ x = {"B", "C"} ∨ x = {"A"}) ∧
        attrsOf relations = {"A", "B", "C"} := by
  refine ⟨by decide, by decide, [{"A"}, {"A"} ∪ {"B"}, {"B"} ∪ {"C"}], by decide, rfl, ?_,
    by decide⟩
  intro x
  have h1 : ({"A"} ∪ {"B"} : AttributeSet) = {"A", "B"} := by decide
  have h2 : ({"B"} ∪ {"C"} : AttributeSet) = {"B", "C"} := by decide
  rw [h1, h2]
  simp only [List.mem_cons, List.mem_singleton, List.not_mem_nil, or_false]
  tauto

/-- C13: for the empty universe `findCandidateKeys` returns the empty key list. -/
theorem findCandidateKeys_empty_universe (F : List FunctionalDependency) :
    findCandidateKeys ∅ F = [] :=
  findCandidateKeys_small ∅ F (by decide)

/-! ## Order and multiplicity of the printed relations -/

theorem lexLess_nil_right (l : List Attribute) : lexLess l [] = false := by
  cases l <;> rfl

theorem lexLess_cons_cons (a b : Attribute) (as bs : List Attribute) :
    lexLess (a :: as) (b :: bs) =
      if a.toList < b.toList then true
      else if b.toList < a.toList then false
      else lexLess as bs := by
  rw [lexLess]

theorem lexLess_trans (l1 : List Attribute) :
    ∀ l2 l3 : List Attribute, lexLess l1 l2 = true → lexLess l2 l3 = true →
      lexLess l1 l3 = true := by
  induction l1 with
  | nil =>
    intro l2 l3 _ h2
    cases l3 with
    | nil =>
      rw [lexLess_nil_right] at h2
      exact Bool.noConfusion h2
    | cons z cs => rfl
  | cons x as ih =>
    intro l2 l3 h1 h2
    cases l2 with
    | nil => exact Bool.noConfusion h1
    | cons y bs =>
      cases l3 with
      | nil => exact Bool.noConfusion h2
      | cons z cs =>
        rw [lexLess_cons_cons] at h1 h2 ⊢
        rcases lt_trichotomy x.toList y.toList with hxy | hxy | hxy
        · rcases lt_trichotomy y.toList z.toList with hyz | hyz | hyz
          · rw [if_pos (lt_trans hxy hyz)]
          · rw [if_pos (hyz ▸ hxy)]
          · rw [if_neg (lt_asymm hyz), if_pos hyz] at h2
            exact Bool.noConfusion h2
        · rw [hxy, if_neg (lt_irrefl _), if_neg (lt_irrefl _)] at h1
          rw [hxy]
          rcases lt_trichotomy y.toList z.toList with hyz | hyz | hyz
          · rw [if_pos hyz]
          · rw [hyz, if_neg (lt_irrefl _), if_neg (lt_irrefl _)] at h2 ⊢
            exact ih bs cs h1 h2
          · rw [if_neg (lt_asymm hyz), if_pos hyz] at h2
            exact Bool.noConfusion h2
        · rw [if_neg (lt_asymm hxy), if_pos hxy] at h1
          exact Bool.noConfusion h1

theorem relLess_trans (a b c : AttributeSet) (h1 : relLess a b = true)
    (h2 : relLess b c = true) : relLess a c = true :=
  lexLess_trans _ _ _ h1 h2

theorem sorted_insertRel (rel : AttributeSet) :
    ∀ rs : List AttributeSet, rs.Pairwise (fun a b => relLess a b = true) →
      (insertRel rel rs).Pairwise (fun a b => relLess a b = true) := by
  intro rs
  induction rs with
  | nil =>
    intro _
    exact List.pairwise_singleton _ _
  | cons r rs ih =>
    intro h
    obtain ⟨hr, hrs⟩ := List.pairwise_cons.1 h
    unfold insertRel
    by_cases h1 : relLess rel r = true
    · rw [if_pos h1]
      refine List.pairwise_cons.2 ⟨?_, h⟩
      intro x hx
      rcases List.mem_cons.1 hx with rfl | hx
      · exact h1
      · exact relLess_trans rel r x h1 (hr x hx)
    · by_cases h2 : relLess r rel = true
      · rw [if_neg h1, if_pos h2]
        refine List.pairwise_cons.2 ⟨?_, ih hrs⟩
        intro x hx
        rcases (mem_insertRel rel x rs).1 hx with rfl | hx
        · exact h2
        · exact hr x hx
      · rw [if_neg h1, if_neg h2]
        exact h

theorem sorted_fdRelations (fds : List FunctionalDependency) :
    (fdRelations fds).Pairwise (fun a b => relLess a b = true) := by
  unfold fdRelations
  have hgen : ∀ init : List AttributeSet, init.Pairwise (fun a b => relLess a b = true) →
      (fds.foldl (fun relations fd => insertRel (fd.lhs ∪ fd.rhs) relations) init).Pairwise
        (fun a b => relLess a b = true) := by
    induction fds with
    | nil => intro init h; exact h
    | cons fd fds ih =>
      intro init h
      rw [List.foldl_cons]
      exact ih _ (sorted_insertRel _ init h)
  exact hgen [] List.Pairwise.nil

theorem normalize3NF_covered (fds : List FunctionalDependency)
    (candidateKeys : List AttributeSet)
    (hcov : keyCovered (fdRelations fds) candidateKeys = true) :
    normalize3NF fds candidateKeys = some (fdRelations fds) := by
  unfold normalize3NF
  simp only [hcov, if_true]

theorem normalize3NF_uncovered (fds : List FunctionalDependency) (key : AttributeSet)
    (keys : List AttributeSet) (hcov : keyCovered (fdRelations fds) (key :: keys) = false) :
    normalize3NF fds (key :: keys) = some (insertRel key (fdRelations fds)) := by
  unfold normalize3NF
  simp [hcov]

theorem sorted_normalize3NF (fds : List FunctionalDependency)
    (candidateKeys relations : List AttributeSet)
    (h : normalize3NF fds candidateKeys = some relations) :
    relations.Pairwise (fun a b => relLess a b = true) := by
  by_cases hcov : keyCovered (fdRelations fds) candidateKeys = true
  · rw [normalize3NF_covered fds candidateKeys hcov] at h
    rw [← Option.some.inj h]
    exact sorted_fdRelations fds
  · cases candidateKeys with
    | nil =>
      rw [normalize3NF_nil] at h
      exact Option.noConfusion h
    | cons key keys =>
      rw [normalize3NF_uncovered fds key keys (by simpa using hcov)] at h
      rw [← Option.some.inj h]
      exact sorted_insertRel key _ (sorted_fdRelations fds)

theorem nodup_of_sorted (rs : List AttributeSet)
    (h : rs.Pairwise (fun a b => relLess a b = true)) : rs.Nodup := by
  refine List.Pairwise.imp ?_ h
  intro a b hab he
  rw [he, relLess_irrefl] at hab
  exact Bool.noConfusion hab

theorem keyCovered_false_iff (fds : List FunctionalDependency)
    (candidateKeys : List AttributeSet) :
    keyCovered (fdRelations fds) candidateKeys = false ↔
      ¬ ∃ fd ∈ fds, ∃ key ∈ candidateKeys, fd.lhs ∪ fd.rhs = key := by
  rw [← Bool.not_eq_true, keyCovered_iff]
  apply not_congr
  constructor
  · rintro ⟨key, hk, hr⟩
    obtain ⟨fd, hfd, he⟩ := (mem_fdRelations key fds).1 hr
    exact ⟨fd, hfd, key, hk, he.symm⟩
  · rintro ⟨fd, hfd, key, hk, he⟩
    exact ⟨key, hk, (mem_fdRelations key fds).2 ⟨fd, hfd, he.symm⟩⟩

/-- C15: for a non-empty key list the printed relations are exactly the sets `lhs ∪ rhs` of
the dependencies, together with the first key exactly when no such set equals a key of the
list; and no relation is printed twice. -/
theorem normalize3NF_relations (F : List FunctionalDependency) (Ks : List AttributeSet)
    (hne : Ks ≠ []) :
    ∃ relations, normalize3NF F Ks = some relations ∧
      (∀ x, x ∈ relations ↔
        (∃ fd ∈ F, x = fd.lhs ∪ fd.rhs) ∨
          (x = Ks.head hne ∧ ¬ ∃ fd ∈ F, ∃ key ∈ Ks, fd.lhs ∪ fd.rhs = key)) ∧
      relations.Nodup := by
  obtain ⟨relations, hrel, hmem⟩ := normalize3NF_of_ne_nil F Ks hne
  refine ⟨relations, hrel, ?_, nodup_of_sorted _ (sorted_normalize3NF F Ks relations hrel)⟩
  intro x
  rw [hmem x, keyCovered_false_iff]

theorem normalize3NF_relations_witness :
    ∃ relations, normalize3NF [⟨{"A"}, {"B"}⟩, ⟨{"B"}, {"A"}⟩] [{"A"}] = some relations ∧
      (∀ x, x ∈ relations ↔
        (∃ fd ∈ [(⟨{"A"}, {"B"}⟩ : FunctionalDependency), ⟨{"B"}, {"A"}⟩],
            x = fd.lhs ∪ fd.rhs) ∨
          (x = ([{"A"}] : List AttributeSet).head (List.cons_ne_nil _ _) ∧
            ¬ ∃ fd ∈ [(⟨{"A"}, {"B"}⟩ : FunctionalDependency), ⟨{"B"}, {"A"}⟩],
              ∃ key ∈ ([{"A"}] : List AttributeSet), fd.lhs ∪ fd.rhs = key)) ∧
      relations.Nodup :=
  normalize3NF_relations [⟨{"A"}, {"B"}⟩, ⟨{"B"}, {"A"}⟩] [{"A"}] (List.cons_ne_nil _ _)

/-- C18, as the code has it: when no relation `lhs ∪ rhs` of a dependency equals a key of the
non-empty key list, the first key is inserted into the relation set; the printed list is
that set in increasing order of `operator<` on attribute sets, so the key is printed at its
place in this order (in the worked example `{A}` is the first table). -/
theorem normalize3NF_inserts_first_key (F : List FunctionalDependency)
    (Ks : List AttributeSet) (hne : Ks ≠ [])
    (hno : ¬ ∃ fd ∈ F, ∃ key ∈ Ks, fd.lhs ∪ fd.rhs = key) :
    ∃ relations, normalize3NF F Ks = some relations ∧
      relations = insertRel (Ks.head hne) (fdRelations F) ∧
      Ks.head hne ∈ relations ∧
      relations.Pairwise (fun a b => relLess a b = true) := by
  obtain ⟨relations, hrel, hmem⟩ := normalize3NF_of_ne_nil F Ks hne
  have hcov := (keyCovered_false_iff F Ks).2 hno
  refine ⟨relations, hrel, ?_, (hmem _).2 (Or.inr ⟨rfl, hcov⟩),
    sorted_normalize3NF F Ks relations hrel⟩
  cases Ks with
  | nil => exact absurd rfl hne
  | cons key keys =>
    rw [normalize3NF_uncovered F key keys hcov] at hrel
    exact (Option.some.inj hrel).symm

theorem normalize3NF_inserts_first_key_witness :
    ∃ relations, normalize3NF exampleFDs [{"A"}] = some relations ∧
      relations = insertRel (([{"A"}] : List AttributeSet).head (List.cons_ne_nil _ _))
        (fdRelations exampleFDs) ∧
      ([{"A"}] : List AttributeSet).head (List.cons_ne_nil _ _) ∈ relations ∧
      relations.Pairwise (fun a b => relLess a b = true) :=
  normalize3NF_inserts_first_key exampleFDs [{"A"}] (List.cons_ne_nil _ _) (by decide)

/-- C18 fails as stated: in the worked example no relation of a dependency equals the key
`{A}`, and the printed list is `{A}`, `{A, B}`, `{B, C}`: the key is the first relation and
the last one is `{B, C}`. -/
theorem normalize3NF_key_not_last :
    ([{"A"}] : List AttributeSet) ≠ [] ∧
      (¬ ∃ fd ∈ exampleFDs, ∃ key ∈ ([{"A"}] : List AttributeSet), fd.lhs ∪ fd.rhs = key) ∧
      ∃ relations, normalize3NF exampleFDs [{"A"}] = some relations ∧
        relations = [{"A"}, {"A", "B"}, {"B", "C"}] ∧
        relations.getLast? ≠ some {"A"} :=
  ⟨List.cons_ne_nil _ _, by decide, [{"A"}, {"A"} ∪ {"B"}, {"B"} ∪ {"C"}], by decide,
    by decide, by decide⟩

/-! ## The key search of the specification -/

theorem subsetsBySize_sizeOrdered (allAttrs : AttributeSet) :
    SizeOrderedEnumeration allAttrs (subsetsBySize allAttrs) := by
  constructor
  · intro K
    unfold subsetsBySize
    rw [List.mem_insertionSort, List.mem_filter, List.mem_map]
    constructor
    · rintro ⟨⟨l, hl, rfl⟩, hne⟩
      refine ⟨?_, of_decide_eq_true hne⟩
      intro a ha
      exact (mem_sortedAttrs allAttrs a).1
        ((List.mem_sublists.1 hl).subset (List.mem_toFinset.1 ha))
    · rintro ⟨hK, hne⟩
      refine ⟨⟨(sortedAttrs allAttrs).filter (fun a => decide (a ∈ K)),
        List.mem_sublists.2 (List.filter_sublist _), ?_⟩, decide_eq_true hne⟩
      ext a
      rw [List.mem_toFinset, List.mem_filter, mem_sortedAttrs]
      constructor
      · rintro ⟨_, h⟩
        exact of_decide_eq_true h
      · intro h
        exact ⟨hK h, decide_eq_true h⟩
  · exact @List.sorted_insertionSort _ (fun a b : AttributeSet => a.card ≤ b.card) _
      ⟨fun a b => le_total a.card b.card⟩ ⟨fun _ _ _ h1 h2 => le_trans h1 h2⟩ _

theorem exists_minimal_below (allAttrs : AttributeSet) (fds : List FunctionalDependency) :
    ∀ K : AttributeSet, K.Nonempty → closure K fds = allAttrs →
      ∃ M : AttributeSet, M.Nonempty ∧ M ⊆ K ∧ closure M fds = allAttrs ∧
        ∀ M' : AttributeSet, M'.Nonempty → M' ⊂ M → closure M' fds ≠ allAttrs := by
  intro K
  induction K using Finset.strongInduction with
  | H K ih =>
    intro hne hc
    by_cases hmin : ∀ M' : AttributeSet, M'.Nonempty → M' ⊂ K → closure M' fds ≠ allAttrs
    · exact ⟨K, hne, Finset.Subset.refl _, hc, hmin⟩
    · have hex : ∃ M' : AttributeSet, M'.Nonempty ∧ M' ⊂ K ∧ closure M' fds = allAttrs := by
        by_contra hno
        apply hmin
        intro M' h1 h2 h3
        exact hno ⟨M', h1, h2, h3⟩
      obtain ⟨M', h1, h2, h3⟩ := hex
      obtain ⟨M, hM1, hM2, hM3, hM4⟩ := ih M' h2 h1 h3
      exact ⟨M, hM1, hM2.trans h2.1, hM3, hM4⟩

theorem specKeyStep_eq (allAttrs : AttributeSet) (fds : List FunctionalDependency)
    (keys : List AttributeSet) (subset : AttributeSet) :
    specKeyStep allAttrs fds keys subset =
      if closure subset fds = allAttrs then
        if keys.any (fun key => decide (key ⊆ subset)) = true then keys else keys ++ [subset]
      else keys := rfl

theorem mem_spec_initial (allAttrs : AttributeSet) (fds : List FunctionalDependency)
    (order : List AttributeSet) (hso : SizeOrderedEnumeration allAttrs order) :
    ∀ L R : List AttributeSet, order = L ++ R → ∀ K : AttributeSet,
      K ∈ L.foldl (specKeyStep allAttrs fds) [] ↔
        K ∈ L ∧ closure K fds = allAttrs ∧
          ∀ K' : AttributeSet, K'.Nonempty → K' ⊂ K → closure K' fds ≠ allAttrs := by
  intro L
  induction L using List.reverseRecOn with
  | nil =>
    intro R _ K
    constructor
    · intro h
      exact absurd h (List.not_mem_nil K)
    · rintro ⟨h, _⟩
      exact absurd h (List.not_mem_nil K)
  | append_singleton L x ih =>
    intro R hord K
    have hord2 : order = L ++ (x :: R) := by
      rw [hord, List.append_assoc]
      rfl
    have ih2 := ih (x :: R) hord2
    have hxmem : x ∈ order := by
      rw [hord2]
      exact List.mem_append_right _ (List.mem_cons_self _ _)
    have hbefore : ∀ K' : AttributeSet, K'.Nonempty → K' ⊂ x → K' ∈ L := by
      intro K' hne hss
      have hK'ord : K' ∈ order :=
        (hso.1 K').2 ⟨hss.1.trans ((hso.1 x).1 hxmem).1, hne⟩
      have hpw := hso.2
      rw [hord2] at hK'ord hpw
      rcases List.mem_append.1 hK'ord with h | h
      · exact h
      · exfalso
        have hcard := Finset.card_lt_card hss
        rcases List.mem_cons.1 h with rfl | h
        · exact lt_irrefl _ hcard
        · have hle := (List.pairwise_cons.1 (List.pairwise_append.1 hpw).2.1).1 K' h
          omega
    rw [List.foldl_append, List.foldl_cons, List.foldl_nil, specKeyStep_eq]
    by_cases hc : closure x fds = allAttrs
    · by_cases hany : (L.foldl (specKeyStep allAttrs fds) []).any
          (fun key => decide (key ⊆ x)) = true
      · rw [if_pos hc, if_pos hany, ih2]
        constructor
        · rintro ⟨h1, h2, h3⟩
          exact ⟨List.mem_append_left _ h1, h2, h3⟩
        · rintro ⟨h1, h2, h3⟩
          rcases List.mem_append.1 h1 with h | h
          · exact ⟨h, h2, h3⟩
          · have hKx : K = x := List.mem_singleton.1 h
            subst hKx
            obtain ⟨key, hkey, hsub⟩ := List.any_eq_true.1 hany
            have hsub2 : key ⊆ K := of_decide_eq_true hsub
            have hk := (ih2 key).1 hkey
            have hkne : key.Nonempty := by
              have hko : key ∈ order := by
                rw [hord2]
                exact List.mem_append_left _ hk.1
              exact ((hso.1 key).1 hko).2
            by_cases he : key = K
            · rw [← he]
              exact hk
            · exact absurd hk.2.1
                (h3 key hkne (Finset.ssubset_iff_subset_ne.2 ⟨hsub2, he⟩))
      · rw [if_pos hc, if_neg hany, List.mem_append, List.mem_singleton, ih2]
        constructor
        · rintro (⟨h1, h2, h3⟩ | rfl)
          · exact ⟨List.mem_append_left _ h1, h2, h3⟩
          · refine ⟨List.mem_append_right _ (List.mem_singleton.2 rfl), hc, ?_⟩
            intro K' hne hss hcl
            apply hany
            obtain ⟨M, hM1, hM2, hM3, hM4⟩ := exists_minimal_below allAttrs fds K' hne hcl
            have hMss : M ⊂ K := Finset.ssubset_of_subset_of_ssubset hM2 hss
            apply List.any_eq_true.2
            exact ⟨M, (ih2 M).2 ⟨hbefore M hM1 hMss, hM3, hM4⟩, decide_eq_true hMss.1⟩
        · rintro ⟨h1, h2, h3⟩
          rcases List.mem_append.1 h1 with h | h
          · exact Or.inl ⟨h, h2, h3⟩
          · exact Or.inr (List.mem_singleton.1 h)
    · rw [if_neg hc, ih2]
      constructor
      · rintro ⟨h1, h2, h3⟩
        exact ⟨List.mem_append_left _ h1, h2, h3⟩
      · rintro ⟨h1, h2, h3⟩
        rcases List.mem_append.1 h1 with h | h
        · exact ⟨h, h2, h3⟩
        · exfalso
          rw [List.mem_singleton.1 h] at h2
          exact hc h2

theorem mem_specCandidateKeys (allAttrs : AttributeSet) (fds : List FunctionalDependency)
    (order : List AttributeSet) (hso : SizeOrderedEnumeration allAttrs order)
    (K : AttributeSet) :
    K ∈ specCandidateKeys allAttrs fds order ↔
      (K ⊆ allAttrs ∧ K.Nonempty) ∧ closure K fds = allAttrs ∧
        ∀ K' : AttributeSet, K'.Nonempty → K' ⊂ K → closure K' fds ≠ allAttrs := by
  unfold specCandidateKeys
  rw [mem_spec_initial allAttrs fds order hso order [] (List.append_nil _).symm K, hso.1 K]

theorem subsetOfMask_nonempty (attrs : List Attribute) (hnd : attrs.Nodup)
    (hlen : attrs.length ≤ 32) (k : Nat)
    (hk1 : 1 ≤ k) (hk2 : k < 2 ^ attrs.length) : (subsetOfMask attrs k).Nonempty := by
  rw [Finset.nonempty_iff_ne_empty]
  intro he
  have h0 := mask_eq_of_subset_eq attrs hnd attrs.length (le_refl _) hlen k 0 hk2
    (Nat.pow_pos (by decide)) (he.trans (subsetOfMask_zero attrs).symm)
  omega

theorem mem_keys_all_masks (allAttrs : AttributeSet) (fds : List FunctionalDependency)
    (hU : allAttrs.card ≤ 32) (K : AttributeSet) :
    K ∈ keysUpTo allAttrs (sortedAttrs allAttrs) fds (2 ^ allAttrs.card - 1) ↔
      (K ⊆ allAttrs ∧ K.Nonempty) ∧ closure K fds = allAttrs ∧
        ∀ K' : AttributeSet, K'.Nonempty → K' ⊂ K → closure K' fds ≠ allAttrs := by
  have hlen := length_sortedAttrs allAttrs
  have hlen32 : (sortedAttrs allAttrs).length ≤ 32 := by omega
  have hnd := nodup_sortedAttrs allAttrs
  have hpos : 0 < 2 ^ allAttrs.card := Nat.pow_pos (by decide)
  rw [mem_keysUpTo]
  constructor
  · rintro ⟨i, h1, h2, h3, rfl⟩
    have hi : i < 2 ^ (sortedAttrs allAttrs).length := by
      rw [hlen]
      omega
    have hsubU : subsetOfMask (sortedAttrs allAttrs) i ⊆ allAttrs := by
      have := subsetOfMask_subset (sortedAttrs allAttrs) i
      rwa [toFinset_sortedAttrs] at this
    refine ⟨⟨hsubU, subsetOfMask_nonempty _ hnd hlen32 i h1 hi⟩, h3.1, ?_⟩
    intro K' hne hss hcl
    obtain ⟨k, hk1, hk2, rfl⟩ :=
      exists_mask_of_nonempty allAttrs K' hU (hss.1.trans hsubU) hne
    have hle := mask_le_of_subset (sortedAttrs allAttrs) hnd _ (le_refl _) hlen32 k i hk2
      hss.1
    have hne2 : k ≠ i := by
      rintro rfl
      exact (Finset.ssubset_iff_subset_ne.1 hss).2 rfl
    exact h3.2 k hk1 (lt_of_le_of_ne hle hne2) hcl hss.1
  · rintro ⟨⟨hKU, hne⟩, hcl, hmin⟩
    obtain ⟨i, h1, h2, rfl⟩ := exists_mask_of_nonempty allAttrs K hU hKU hne
    refine ⟨i, h1, by rw [hlen] at h2; omega, ⟨hcl, ?_⟩, rfl⟩
    intro k hk1 hk2 hk3 hk4
    have hk : k < 2 ^ (sortedAttrs allAttrs).length := lt_trans hk2 h2
    refine hmin _ (subsetOfMask_nonempty _ hnd hlen32 k hk1 hk)
      (Finset.ssubset_iff_subset_ne.2 ⟨hk4, ?_⟩) hk3
    intro he
    have := mask_eq_of_subset_eq (sortedAttrs allAttrs) hnd _ (le_refl _) hlen32 k i hk h2 he
    omega

/-- For a universe of at most 30 attributes, the keys returned by `findCandidateKeys`, which
goes through the subsets in numeric mask order, are the same set as the keys accepted by the
specification's design over any enumeration of the non-empty subsets in non-decreasing
cardinality order. -/
theorem findCandidateKeys_refines_spec (U : AttributeSet) (F : List FunctionalDependency)
    (order : List AttributeSet) (hU : U.card ≤ 30) (hso : SizeOrderedEnumeration U order) :
    ∀ K, K ∈ findCandidateKeys U F ↔ K ∈ specCandidateKeys U F order := by
  intro K
  rw [findCandidateKeys_small U F hU, mem_keys_all_masks U F (by omega),
    mem_specCandidateKeys U F order hso]

theorem findCandidateKeys_refines_spec_witness :
    ∀ K, K ∈ findCandidateKeys {"A", "B", "C"} exampleFDs ↔
      K ∈ specCandidateKeys {"A", "B", "C"} exampleFDs (subsetsBySize {"A", "B", "C"}) :=
  findCandidateKeys_refines_spec {"A", "B", "C"} exampleFDs (subsetsBySize {"A", "B", "C"})
    (by decide) (subsetsBySize_sizeOrdered _)

/-- C14 fails on the code: for the 31-attribute universe without dependencies the
specification's design, run over the subsets in non-decreasing cardinality order, accepts
the universe as a key, while `findCandidateKeys` returns the empty list, because the loop
bound `1 << 31` is negative and the loop over the masks never runs. -/
theorem findCandidateKeys_differs_from_spec_31 :
    SizeOrderedEnumeration universe31 (subsetsBySize universe31) ∧
      universe31 ∈ specCandidateKeys universe31 [] (subsetsBySize universe31) ∧
      findCandidateKeys universe31 [] = [] := by
  have hclosed : ∀ T : AttributeSet, closure T [] = T := fun T =>
    closure_of_closed T [] (fun fd hfd => absurd hfd (List.not_mem_nil fd))
  refine ⟨subsetsBySize_sizeOrdered _, ?_, by decide⟩
  rw [mem_specCandidateKeys universe31 [] _ (subsetsBySize_sizeOrdered _)]
  refine ⟨⟨Finset.Subset.refl _, ⟨"a01", by decide⟩⟩, hclosed _, ?_⟩
  intro K' _ hss
  rw [hclosed]
  exact (Finset.ssubset_iff_subset_ne.1 hss).2

/-! ## Safety of the first-key access and the attribute round trip -/

/-- For a non-empty universe `U` of at most 30 attributes and dependencies whose attributes
all belong to `U`, `closure U F = U`, `findCandidateKeys` returns a non-empty list, its first
element exists, and `normalize3NF` on that list prints a relation list. -/
theorem first_key_access_in_bounds (U : AttributeSet) (F : List FunctionalDependency)
    (hne : U.Nonempty) (hU : U.card ≤ 30) (hF : ∀ fd ∈ F, fd.lhs ⊆ U ∧ fd.rhs ⊆ U) :
    closure U F = U ∧ findCandidateKeys U F ≠ [] ∧
      (∃ key, (findCandidateKeys U F)[0]? = some key) ∧
      ∃ relations, normalize3NF F (findCandidateKeys U F) = some relations := by
  have hcl : ClosedUnder F U := fun fd hfd _ => (hF fd hfd).2
  refine ⟨closure_of_closed U F hcl, ?_⟩
  have hnil := exists_key_of_closed U F hne hU hcl
  obtain ⟨relations, hrel, _⟩ := normalize3NF_of_ne_nil F _ hnil
  refine ⟨hnil, ?_, relations, hrel⟩
  cases hks : findCandidateKeys U F with
  | nil => exact absurd hks hnil
  | cons key keys => exact ⟨key, by simp⟩

theorem first_key_access_in_bounds_witness :
    closure {"A", "B", "C"} exampleFDs = {"A", "B", "C"} ∧
      findCandidateKeys {"A", "B", "C"} exampleFDs ≠ [] ∧
      (∃ key, (findCandidateKeys {"A", "B", "C"} exampleFDs)[0]? = some key) ∧
      ∃ relations,
        normalize3NF exampleFDs (findCandidateKeys {"A", "B", "C"} exampleFDs) =
          some relations :=
  first_key_access_in_bounds {"A", "B", "C"} exampleFDs ⟨"A", by decide⟩ (by decide)
    (by decide)

/-- C19 fails on the code: the 31-attribute universe is non-empty, there is no dependency and
its closure is itself, yet `findCandidateKeys` returns the empty list, because the loop bound
`1 << 31` is negative; the first element of that list does not exist, and `normalize3NF` on
it runs into the out-of-bounds access `candidateKeys[0]`. -/
theorem first_key_access_out_of_bounds_31 :
    universe31.Nonempty ∧
      (∀ fd ∈ ([] : List FunctionalDependency), fd.lhs ⊆ universe31 ∧ fd.rhs ⊆ universe31) ∧
      closure universe31 [] = universe31 ∧
      findCandidateKeys universe31 [] = [] ∧
      (findCandidateKeys universe31 [])[0]? = none ∧
      normalize3NF [] (findCandidateKeys universe31 []) = none := by
  have h31 : findCandidateKeys universe31 [] = [] := by decide
  refine ⟨⟨"a01", by decide⟩, fun fd hfd => absurd hfd (List.not_mem_nil fd),
    closure_of_closed _ [] (fun fd hfd => absurd hfd (List.not_mem_nil fd)), h31, ?_, ?_⟩
  · rw [h31]
    rfl
  · rw [h31]
    exact normalize3NF_nil []

/-- For a non-empty universe `U` of at most 30 attributes and dependencies whose attributes
all belong to `U`, the relations printed by `normalize3NF` on `F` and the keys of
`findCandidateKeys U F` have exactly the attributes of `U`. -/
theorem decomposition_attrs_eq_universe (U : AttributeSet) (F : List FunctionalDependency)
    (hne : U.Nonempty) (hU : U.card ≤ 30) (hF : ∀ fd ∈ F, fd.lhs ⊆ U ∧ fd.rhs ⊆ U) :
    ∃ relations, normalize3NF F (findCandidateKeys U F) = some relations ∧
      attrsOf relations = U := by
  have hcl : ClosedUnder F U := fun fd hfd _ => (hF fd hfd).2
  have hnil := exists_key_of_closed U F hne hU hcl
  obtain ⟨relations, hrel, _, heq⟩ := decomposition_covers_universe U F hnil
  exact ⟨relations, hrel, heq (fun fd hfd => (hF fd hfd).1)⟩

theorem decomposition_attrs_eq_universe_witness :
    ∃ relations,
      normalize3NF exampleFDs (findCandidateKeys {"A", "B", "C"} exampleFDs) =
        some relations ∧
      attrsOf relations = {"A", "B", "C"} :=
  decomposition_attrs_eq_universe {"A", "B", "C"} exampleFDs ⟨"A", by decide⟩ (by decide)
    (by decide)

/-- C20 fails on the code: for the 31-attribute universe without dependencies the key list is
empty, because the loop bound `1 << 31` is negative, and `normalize3NF` on it runs into the
out-of-bounds access instead of printing relations, so no relation list with the attributes
of the universe is produced. -/
theorem decomposition_loses_universe_31 :
    universe31.Nonempty ∧
      (∀ fd ∈ ([] : List FunctionalDependency), fd.lhs ⊆ universe31 ∧ fd.rhs ⊆ universe31) ∧
      normalize3NF [] (findCandidateKeys universe31 []) = none ∧
      ¬ ∃ relations, normalize3NF [] (findCandidateKeys universe31 []) = some relations ∧
        attrsOf relations = universe31 := by
  have h31 : findCandidateKeys universe31 [] = [] := by decide
  refine ⟨⟨"a01", by decide⟩, fun fd hfd => absurd hfd (List.not_mem_nil fd), ?_, ?_⟩
  · rw [h31]
    exact normalize3NF_nil []
  · rintro ⟨relations, h2, _⟩
    rw [h31, normalize3NF_nil] at h2
    exact Option.noConfusion h2

end ThreeNF
